import Mathlib

/-!
# rmq: delivery lifecycle, signal registry and cleaner

A shallow embedding of `delivery.go` and `signals.go`, together with the
backing-store commands they call and the cleaner the test file exercises.

Conventions of the embedding.

* A Redis list is a `List String` whose head is the Redis head (index 0):
  `LPUSH` conses, `RPOPLPUSH` takes the last element, `LREM key 1 v` removes
  the occurrence of `v` closest to the head.
* The backing store holds one list per key; a key that does not exist holds
  the empty list (Redis does not distinguish the two).
* The environment of a blocking operation is a script of replies, one per
  store command the operation issues.  A reply says whether the command was
  served or failed with a Redis error, and for a failure what `ctx.Err()`
  reports at the check that follows it.  An operation whose script runs out
  before it returns yields `none`.
* Go's `error` result is `Option RmqError`, `none` being `nil`.
* `errorCount` is a Go `int`; it grows by one per failed command, each
  followed by a one second sleep, so it is modelled by `Nat`.
-/

namespace Rmq

/-! ## Data model (delivery.go) -/

/-- The two sentinel errors a delivery operation returns. -/
inductive RmqError where
  | ErrorNotFound
  | ErrorConsumingStopped
deriving DecidableEq, Repr

/-- The record `redisDelivery` of delivery.go.  The fields `ctx`,
`redisClient` and `errChan` are references into the environment; they are
carried by `World` and by the reply script. -/
structure redisDelivery where
  payload : String
  clearPayload : String
  header : List (String × List String)
  readyKey : String
  unackedKey : String
  rejectedKey : String
  pushKey : String
deriving DecidableEq, Repr

/-- The value `DeliveryError` sent on the error channel. -/
structure DeliveryError where
  Delivery : redisDelivery
  RedisErr : String
  Count : Nat
deriving DecidableEq, Repr

/-- The lists of the backing store, by key. -/
abbrev Store := String → List String

/-- The store in which every list is empty. -/
def Store.empty : Store := fun _ => []

/-- Replace the list held at `key`. -/
def Store.set (s : Store) (key : String) (l : List String) : Store :=
  fun k => if k = key then l else s k

/-- Remove the first `n` occurrences of `v`, scanning from the head. -/
def removeFirstN : Nat → String → List String → List String
  | 0, _, l => l
  | _ + 1, _, [] => []
  | n + 1, v, x :: xs =>
      if x = v then removeFirstN n v xs else x :: removeFirstN (n + 1) v xs

/-- Modelled from the spec: the store command `LPUSH key value` behind
`RedisClient.LPush`, whose implementation is not among the sources.  It puts
`value` at the head of the list and returns the new length. -/
def LPush (s : Store) (key value : String) : Nat × Store :=
  ((value :: s key).length, s.set key (value :: s key))

/-- Modelled from the spec: the store command `LREM key count value` behind
`RedisClient.LRem`, whose implementation is not among the sources.  A
positive `count` removes that many occurrences from the head, a negative one
from the tail, zero removes all; the number of removed elements is
returned. -/
def LRem (s : Store) (key : String) (count : Int) (value : String) : Nat × Store :=
  let l := s key
  let l1 :=
    if 0 < count then removeFirstN count.toNat value l
    else if count < 0 then (removeFirstN (-count).toNat value l.reverse).reverse
    else l.filter (fun x => x ≠ value)
  (l.length - l1.length, s.set key l1)

/-- Modelled from the spec: the store command `RPOPLPUSH src dst`, used by
the consumer loop and the cleaner (neither is among the sources).  It moves
the last element of `src` to the head of `dst` and returns it; on an empty
`src` nothing happens. -/
def RPopLPush (s : Store) (src dst : String) : Option String × Store :=
  match (s src).getLast? with
  | none => (none, s)
  | some v => (some v, (s.set src (s src).dropLast).set dst (v :: (s.set src (s src).dropLast) dst))

/-- One reply of the environment to a store command: the command is
`served`, or it `failed` with a Redis error, in which case `ctxDone` is what
`ctx.Err() != nil` evaluates to at the check after the failure.  A failed
command has no effect on the store. -/
inductive Reply where
  | served
  | failed (redisErr : String) (ctxDone : Bool)
deriving DecidableEq, Repr

/-- The part of the process and of the store a delivery operation acts on.
`errChan` is the buffer of the error channel, which is open, and
`errChanCap` its capacity (0 for a nil channel or an unbuffered one nobody
receives from).  The last
three fields are a record of what happened: every error offered to the
channel, the number of store commands issued and of seconds slept. -/
structure World where
  store : Store
  errChanCap : Nat
  errChan : List DeliveryError
  offered : List DeliveryError
  calls : Nat
  slept : Nat

/-- The statement `select { case errChan <- e: default: }`: the send goes
through when the buffer has room and is dropped otherwise; it never
blocks. -/
def trySend (w : World) (e : DeliveryError) : World :=
  { w with
    errChan := if w.errChan.length < w.errChanCap then w.errChan ++ [e] else w.errChan
    offered := w.offered ++ [e] }

/-- What an operation returns: the Go error, the world afterwards and the
replies it did not use. -/
abbrev Outcome := Option (Option RmqError × World × List Reply)

/-! ## Operations (delivery.go) -/

/-- The method `Payload`. -/
def redisDelivery.Payload (delivery : redisDelivery) : String :=
  delivery.clearPayload

/-- The loop of `Ack`, with the local `errorCount` as an argument. -/
def AckLoop (delivery : redisDelivery) : Nat → List Reply → World → Outcome
  | _, [], _ => none
  | _, Reply.served :: rest, w =>
      let r := LRem w.store delivery.unackedKey 1 delivery.payload
      let w1 : World := { w with store := r.2, calls := w.calls + 1 }
      if r.1 = 0 then some (some RmqError.ErrorNotFound, w1, rest)
      else some (none, w1, rest)
  | errorCount, Reply.failed err ctxDone :: rest, w =>
      let w1 := trySend { w with calls := w.calls + 1 } ⟨delivery, err, errorCount + 1⟩
      if ctxDone then some (some RmqError.ErrorConsumingStopped, w1, rest)
      else AckLoop delivery (errorCount + 1) rest { w1 with slept := w1.slept + 1 }

/-- The method `Ack`. -/
def Ack (delivery : redisDelivery) (replies : List Reply) (w : World) : Outcome :=
  AckLoop delivery 0 replies w

/-- The `LPush` retry loop shared by `move` and `setPayload`: `sender` is
the delivery named in the errors it reports.  The error component is `none`
when the loop is left by `break`. -/
def pushLoop (sender : redisDelivery) (key value : String) : Nat → List Reply → World → Outcome
  | _, [], _ => none
  | _, Reply.served :: rest, w =>
      some (none, { w with store := (LPush w.store key value).2, calls := w.calls + 1 }, rest)
  | errorCount, Reply.failed err ctxDone :: rest, w =>
      let w1 := trySend { w with calls := w.calls + 1 } ⟨sender, err, errorCount + 1⟩
      if ctxDone then some (some RmqError.ErrorConsumingStopped, w1, rest)
      else pushLoop sender key value (errorCount + 1) rest { w1 with slept := w1.slept + 1 }

/-- The method `move`. -/
def move (delivery : redisDelivery) (key : String) (replies : List Reply) (w : World) : Outcome :=
  match pushLoop delivery key delivery.payload 0 replies w with
  | none => none
  | some (some e, w1, rest) => some (some e, w1, rest)
  | some (none, w1, rest) => Ack delivery rest w1

/-- The method `Reject`. -/
def Reject (delivery : redisDelivery) (replies : List Reply) (w : World) : Outcome :=
  move delivery delivery.rejectedKey replies w

/-- The method `Push`. -/
def Push (delivery : redisDelivery) (replies : List Reply) (w : World) : Outcome :=
  if delivery.pushKey = "" then Reject delivery replies w
  else move delivery delivery.pushKey replies w

/-- The method `Return`. -/
def Return (delivery : redisDelivery) (replies : List Reply) (w : World) : Outcome :=
  move delivery delivery.readyKey replies w

/-- The first statements of `setPayload`: a copy of the receiver whose
`payload` and `clearPayload` are set to the new payload. -/
def withPayload (delivery : redisDelivery) (payload : String) : redisDelivery :=
  { delivery with payload := payload, clearPayload := payload }

/-- What `setPayload` returns: the Go error, the record its receiver points
to when the call returns, the world afterwards and the replies it did not
use. -/
abbrev SetOutcome := Option (Option RmqError × redisDelivery × World × List Reply)

/-- The method `setPayload`.  The receiver is a pointer: the second
component of the result is the record it points to when the call returns.
The assignments of the method go to the local copy `newDelivery`, none goes
through the receiver, and `Ack`, called on the receiver at the end, assigns
to no field either. -/
def setPayload (delivery : redisDelivery) (payload queueKey : String)
    (replies : List Reply) (w : World) : SetOutcome :=
  let newDelivery : redisDelivery := withPayload delivery payload
  match pushLoop newDelivery queueKey newDelivery.Payload 0 replies w with
  | none => none
  | some (some e, w1, rest) => some (some e, delivery, w1, rest)
  | some (none, w1, rest) =>
      match Ack delivery rest w1 with
      | none => none
      | some (e, w2, rest2) => some (e, delivery, w2, rest2)

/-- The method `SetPayload`. -/
def SetPayload (delivery : redisDelivery) (payload : String)
    (replies : List Reply) (w : World) : SetOutcome :=
  setPayload delivery payload delivery.readyKey replies w

/-- The method `SetPayloadAndReject`. -/
def SetPayloadAndReject (delivery : redisDelivery) (payload : String)
    (replies : List Reply) (w : World) : SetOutcome :=
  setPayload delivery payload delivery.rejectedKey replies w

/-! ## Signal registry (signals.go) -/

/-- A value of type `chan Signal`: `none` is the nil channel, `some i` the
channel with identity `i`. -/
abbrev SigChan := Option Nat

/-- The record `SigChannels`.  The field `m` is `none` for a nil map (the
zero value of the struct) and `some f` for an allocated one, `f name` being
the entry stored under `name`, if any.  The mutex only serialises callers and
has no counterpart here. -/
structure SigChannels where
  m : Option (String → Option SigChan)

/-- The constructor `NewSigChannels`: an allocated, empty map. -/
def NewSigChannels : SigChannels :=
  ⟨some (fun _ => none)⟩

/-- The method `Add`.  Assigning to an entry of a nil map panics, which is
the result `none`. -/
def SigChannels.Add (sigChannels : SigChannels) (name : String) (sigChanel : SigChan) :
    Option SigChannels :=
  match sigChannels.m with
  | none => none
  | some f => some ⟨some (fun k => if k = name then some sigChanel else f k)⟩

/-- The method `Remove`; `delete` on a nil map does nothing. -/
def SigChannels.Remove (sigChannels : SigChannels) (name : String) : SigChannels :=
  match sigChannels.m with
  | none => sigChannels
  | some f => ⟨some (fun k => if k = name then none else f k)⟩

/-- The method `Get`: the stored channel, or the zero value nil when the
name has no entry. -/
def SigChannels.Get (sigChannels : SigChannels) (name : String) : SigChan :=
  match sigChannels.m with
  | none => none
  | some f => (f name).getD none

/-! ## Scripts used in the statements -/

/-- A script of `n` served commands: the store does not fail. -/
def calm (n : Nat) : List Reply :=
  List.replicate n Reply.served

/-- A script of failed commands, one per listed Redis error, after each of
which the context is still live. -/
def liveFails (errs : List String) : List Reply :=
  errs.map (fun e => Reply.failed e false)

/-- The errors a retry loop reports for the listed Redis errors when its
counter stands at `errorCount`. -/
def retryErrors (sender : redisDelivery) : Nat → List String → List DeliveryError
  | _, [] => []
  | errorCount, e :: es =>
      ⟨sender, e, errorCount + 1⟩ :: retryErrors sender (errorCount + 1) es

/-- The world after the listed errors were offered, one per failed command,
with a sleep after each. -/
def afterFails (w : World) (errs : List DeliveryError) : World :=
  errs.foldl (fun v e =>
    let v1 := trySend { v with calls := v.calls + 1 } e
    { v1 with slept := v1.slept + 1 }) w

/-- The world after a served `LPUSH key value`. -/
def World.afterPush (w : World) (key value : String) : World :=
  { w with store := (LPush w.store key value).2, calls := w.calls + 1 }

/-- The world after a served `LREM key 1 value`. -/
def World.afterRem (w : World) (key value : String) : World :=
  { w with store := (LRem w.store key 1 value).2, calls := w.calls + 1 }

/-- The error `Ack` returns after a served `LREM` on the store `s`. -/
def ackError (d : redisDelivery) (s : Store) : Option RmqError :=
  if d.payload ∈ s d.unackedKey then none else some RmqError.ErrorNotFound

/-- The list `Push` pushes onto: the successor queue when one is configured,
the rejected list otherwise. -/
def pushTarget (d : redisDelivery) : String :=
  if d.pushKey = "" then d.rejectedKey else d.pushKey

/-- The keys a delivery refers to, each once; an empty `pushKey` names no
list. -/
def deliveryKeys (d : redisDelivery) : List String :=
  ([d.readyKey, d.unackedKey, d.rejectedKey] ++ (if d.pushKey = "" then [] else [d.pushKey])).dedup

/-- The number of payloads stored under the keys of a delivery. -/
def storedCount (d : redisDelivery) (s : Store) : Nat :=
  ((deliveryKeys d).map (fun k => (s k).length)).sum

/-! ## One queue driven by a single process -/

/-- The keys of one queue as one consumer binding sees them; `pushKey` is
empty when no successor queue is configured. -/
structure Binding where
  readyKey : String
  unackedKey : String
  rejectedKey : String
  pushKey : String
deriving DecidableEq, Repr

/-- The keys name different lists, as the key schema has it: the unacked
list is connection scoped, ready and rejected are queue scoped with
different suffixes, and a push target is the ready list of a queue. -/
def Binding.Distinct (b : Binding) : Prop :=
  b.readyKey ≠ b.unackedKey ∧ b.readyKey ≠ b.rejectedKey ∧ b.unackedKey ≠ b.rejectedKey ∧
  b.pushKey ≠ b.unackedKey ∧ b.pushKey ≠ b.rejectedKey

instance (b : Binding) : Decidable b.Distinct := by
  unfold Binding.Distinct; infer_instance

/-- The state of a single-process run: the world, the deliveries handed to
the consumer so far, and the counts of publishes and of successful plain
acks. -/
structure Sys where
  world : World
  deliveries : List redisDelivery
  published : Nat
  acked : Nat

/-- The operations of a run.  A delivery operation names the delivery it is
applied to by its position among the consumed ones. -/
inductive Op where
  | publish (payload : String)
  | consume
  | ack (i : Nat)
  | reject (i : Nat)
  | push (i : Nat)
  | ret (i : Nat)
deriving DecidableEq, Repr

/-- The world before anything was published: every list is empty. -/
def World.init (cap : Nat) : World :=
  ⟨Store.empty, cap, [], [], 0, 0⟩

/-- The state before anything was published. -/
def Sys.init (cap : Nat) : Sys :=
  ⟨World.init cap, [], 0, 0⟩

/-- Modelled from the spec: `Queue.Publish`, which is not among the sources:
`LPUSH` of the payload onto the ready list. -/
def publish (b : Binding) (payload : String) (s : Sys) : Sys :=
  { s with
    world := { s.world with store := (LPush s.world.store b.readyKey payload).2,
                            calls := s.world.calls + 1 }
    published := s.published + 1 }

/-- Modelled from the spec: one step of the prefetch loop, which is not among
the sources: `RPOPLPUSH` from the ready list to the unacked list, and a
delivery built for the moved payload with the keys of the binding.  The
payload carries no header, so `clearPayload` is the payload. -/
def consume (b : Binding) (s : Sys) : Sys :=
  match RPopLPush s.world.store b.readyKey b.unackedKey with
  | (none, _) => { s with world := { s.world with calls := s.world.calls + 1 } }
  | (some v, st) =>
      { s with
        world := { s.world with store := st, calls := s.world.calls + 1 }
        deliveries := s.deliveries ++
          [⟨v, v, [], b.readyKey, b.unackedKey, b.rejectedKey, b.pushKey⟩] }

/-- Apply a delivery operation against a store that does not fail, counting
a successful plain `Ack` when `isAck` is set. -/
def finish (f : redisDelivery → List Reply → World → Outcome) (isAck : Bool) (i : Nat)
    (s : Sys) : Sys :=
  match s.deliveries.get? i with
  | none => s
  | some d =>
      match f d (calm 2) s.world with
      | none => s
      | some (none, w, _) => { s with world := w, acked := if isAck then s.acked + 1 else s.acked }
      | some (some _, w, _) => { s with world := w }

/-- One operation of a run. -/
def step (b : Binding) (s : Sys) : Op → Sys
  | Op.publish p => publish b p s
  | Op.consume => consume b s
  | Op.ack i => finish Ack true i s
  | Op.reject i => finish Reject false i s
  | Op.push i => finish Push false i s
  | Op.ret i => finish Return false i s

/-- A run: the operations applied in order. -/
def run (b : Binding) (ops : List Op) (s : Sys) : Sys :=
  ops.foldl (step b) s

/-- The sum `|ready| + |unacked| + |rejected|` over the lists of a binding,
the ready lists being the one of the queue and the push target when that is
another list. -/
def storeTotal (b : Binding) (st : Store) : Nat :=
  (st b.readyKey).length + (st b.unackedKey).length + (st b.rejectedKey).length +
  (if b.pushKey = "" ∨ b.pushKey = b.readyKey then 0 else (st b.pushKey).length)

/-- The sum `|ready| + |unacked| + |rejected| + |acked|`. -/
def Sys.total (b : Binding) (s : Sys) : Nat :=
  storeTotal b s.world.store + s.acked

/-- Every delivery handed out carries the keys of the binding. -/
def Sys.Bound (b : Binding) (s : Sys) : Prop :=
  ∀ d ∈ s.deliveries, d.readyKey = b.readyKey ∧ d.unackedKey = b.unackedKey ∧
    d.rejectedKey = b.rejectedKey ∧ d.pushKey = b.pushKey

/-- The operation is a publish. -/
def Op.isPublish : Op → Bool
  | Op.publish _ => true
  | _ => false

/-- The keys of queue `q` on connection `c`, with successor queue `next`. -/
def sampleBinding : Binding :=
  ⟨"queue:q:ready", "connection:c:queue:q:unacked", "queue:q:rejected", "queue:next:ready"⟩

/-- The operation is a `Reject`, `Push` or `Return` of a delivery whose
payload is no longer in the unacked list. -/
def Op.stale (s : Sys) : Op → Bool
  | Op.reject i | Op.push i | Op.ret i =>
      match s.deliveries.get? i with
      | none => false
      | some d => decide (d.payload ∉ s.world.store d.unackedKey)
  | _ => false

/-- No `Reject`, `Push` or `Return` of the run is applied to a delivery
whose payload has already left the unacked list. -/
def Fresh (b : Binding) : List Op → Sys → Prop
  | [], _ => True
  | op :: ops, s => op.stale s = false ∧ Fresh b ops (step b s op)

instance (b : Binding) : (ops : List Op) → (s : Sys) → Decidable (Fresh b ops s)
  | [], _ => isTrue trivial
  | op :: ops, s =>
      have := instDecidableFresh b ops (step b s op)
      inferInstanceAs (Decidable (op.stale s = false ∧ Fresh b ops (step b s op)))

/-! ## Cleaner

`Cleaner.Clean` is exercised by `TestCleaner` but its code is not among the
sources; it is modelled from section 4.6 of the specification.  Keys are
kept structured (connection id, queue name) instead of being concatenated
into strings, so that different identifiers name different lists, as the key
schema intends. -/

/-- Modelled from the spec: the keys the cleaner reads and writes, which the
key schema of section 4.1 derives from identifiers.  `connections` is the
reply of `SMEMBERS connections`, `heartbeat cid` says whether
`connection:<cid>:heartbeat` exists, `connQueues cid` and `consumers cid q`
are the members of `connection:<cid>:queues` and of
`connection:<cid>:queue:<q>:consumers`, `unacked cid q` is the list
`connection:<cid>:queue:<q>:unacked`, the one unacked list all consumers of
a queue on a connection share (section 4.3), filled by the prefetch loop
whether or not a consumer was added, and `ready q` is the list
`queue:<q>:ready`. -/
structure Broker where
  connections : List String
  heartbeat : String → Bool
  connQueues : String → List String
  consumers : String → String → List String
  unacked : String → String → List String
  ready : String → List String

/-- Modelled from the spec: `RPOPLPUSH` from the unacked list of `cid` and
`q` to `queue:<q>:ready`, on the structured keys. -/
def Broker.rpoplpush (b : Broker) (cid q : String) : Option String × Broker :=
  match (b.unacked cid q).getLast? with
  | none => (none, b)
  | some v =>
      (some v,
       { b with
         unacked := fun c x =>
           if c = cid ∧ x = q then (b.unacked cid q).dropLast else b.unacked c x
         ready := fun x => if x = q then v :: b.ready q else b.ready x })

/-- Modelled from the spec: the loop of step 3, `RPOPLPUSH` until the
unacked list is empty, counting moves.  The first argument bounds the number
of iterations; `cleanConsumers` passes the length of the list. -/
def drain (cid q : String) : Nat → Broker → Nat → Nat × Broker
  | 0, b, n => (n, b)
  | fuel + 1, b, n =>
      match b.rpoplpush cid q with
      | (none, _) => (n, b)
      | (some _, b1) => drain cid q fuel b1 (n + 1)

/-- Modelled from the spec: step 3 for the consumer tags of one queue of a
dead connection: for each tag `t`, drain `unackedKey(cid,q,t)`.  By the key
schema that key is `connection:<cid>:queue:<q>:unacked` for every tag, so
the first tag drains the list and the later ones find it empty; with no tag
in the set nothing is drained. -/
def cleanConsumers (cid q : String) : List String → Broker → Nat → Nat × Broker
  | [], b, n => (n, b)
  | _ :: ts, b, n =>
      let r := drain cid q (b.unacked cid q).length b n
      cleanConsumers cid q ts r.2 r.1

/-- Modelled from the spec: step 3 for the queues of a dead connection; the
consumers set of a queue is deleted once its tags are drained. -/
def cleanQueues (cid : String) : List String → Broker → Nat → Nat × Broker
  | [], b, n => (n, b)
  | q :: qs, b, n =>
      let r := cleanConsumers cid q (b.consumers cid q) b n
      let b1 : Broker :=
        { r.2 with consumers := fun c x => if c = cid ∧ x = q then [] else r.2.consumers c x }
      cleanQueues cid qs b1 r.1

/-- Modelled from the spec: steps 3 and 4 for one dead connection. -/
def cleanConnection (cid : String) (b : Broker) (n : Nat) : Nat × Broker :=
  let r := cleanQueues cid (b.connQueues cid) b n
  (r.1,
   { r.2 with
     connQueues := fun c => if c = cid then [] else r.2.connQueues c
     connections := r.2.connections.filter (fun c => c ≠ cid) })

/-- Modelled from the spec: steps 2 to 4 over the members read in step 1. -/
def cleanAll : List String → Broker → Nat → Nat × Broker
  | [], b, n => (n, b)
  | cid :: cids, b, n =>
      if b.heartbeat cid then cleanAll cids b n
      else
        let r := cleanConnection cid b n
        cleanAll cids r.2 r.1

/-- Modelled from the spec: `Cleaner.Clean`, returning the number of
recovered deliveries and the store afterwards. -/
def Clean (b : Broker) : Nat × Broker :=
  cleanAll b.connections b 0

/-- The connections set and the queues sets list each member once. -/
def Broker.SetsOk (b : Broker) : Prop :=
  b.connections.Nodup ∧ ∀ cid, (b.connQueues cid).Nodup

/-- The connections the cleaner treats as dead: listed in the connections
set, heartbeat key absent. -/
def Broker.dead (b : Broker) : List String :=
  b.connections.filter (fun c => !b.heartbeat c)

/-- The cleaner reaches the unacked list of `cid` and `q`: the queue is in
the queues set of the connection and its consumers set has a tag. -/
def Broker.reached (b : Broker) (cid q : String) : Prop :=
  q ∈ b.connQueues cid ∧ b.consumers cid q ≠ []

instance (b : Broker) (cid q : String) : Decidable (b.reached cid q) := by
  unfold Broker.reached; infer_instance

/-- The payloads of queue `q` connection `cid` holds in an unacked list the
cleaner reaches. -/
def Broker.heldBy (b : Broker) (cid q : String) : List String :=
  if b.reached cid q then b.unacked cid q else []

/-- The payloads of queue `q` held by dead connections in unacked lists the
cleaner reaches, the connection cleaned last first. -/
def Broker.recoverable (b : Broker) (q : String) : List String :=
  (b.dead.reverse.map (fun c => b.heldBy c q)).flatten

/-- The number of payloads connection `cid` holds in the unacked lists the
cleaner reaches. -/
def Broker.heldCount (b : Broker) (cid : String) : Nat :=
  ((b.connQueues cid).map (fun q => (b.heldBy cid q).length)).sum

/-- The number of payloads dead connections hold in the unacked lists the
cleaner reaches. -/
def Broker.deadUnacked (b : Broker) : Nat :=
  (b.dead.map b.heldCount).sum

/-- The state `TestCleaner` reaches before the first `Clean`: two stopped
connections of `cleaner-conn1`, each with a consumer added and holding two
unacked payloads of `q1`, five ready payloads, and the live connection of
the cleaner. -/
def testBroker : Broker where
  connections := ["conn1-a", "conn1-b", "cleaner-conn"]
  heartbeat := fun c => c = "cleaner-conn"
  connQueues := fun c =>
    if c = "conn1-a" then ["q1", "q2"] else if c = "conn1-b" then ["q1"] else []
  consumers := fun c q =>
    if c = "conn1-a" ∧ q = "q1" then ["consumer1"]
    else if c = "conn1-b" ∧ q = "q1" then ["consumer2"] else []
  unacked := fun c q =>
    if c = "conn1-a" ∧ q = "q1" then ["del3", "del2"]
    else if c = "conn1-b" ∧ q = "q1" then ["del6", "del4"] else []
  ready := fun q => if q = "q1" then ["del11", "del10", "del9", "del8", "del7"] else []

/-- The state `TestCleaner` reaches before its second `Clean`: a third
connection of `cleaner-conn1` consumed and acked everything, then stopped. -/
def testBrokerLater : Broker where
  connections := ["conn1-c", "cleaner-conn"]
  heartbeat := fun c => c = "cleaner-conn"
  connQueues := fun c => if c = "conn1-c" then ["q1"] else []
  consumers := fun c q => if c = "conn1-c" ∧ q = "q1" then ["consumer3"] else []
  unacked := fun _ _ => []
  ready := fun _ => []

/-- The state of `TestCleaner` after `StartConsuming(2, ...)` and before any
`AddConsumer` (the test sees 2 unacked and 4 ready there), with the
heartbeat of the connection stopped at that point: a dead connection whose
queue `q1` is in its queues set, holds two unacked payloads and has no
consumer tag. -/
def strandedBroker : Broker where
  connections := ["conn1-a", "cleaner-conn"]
  heartbeat := fun c => c = "cleaner-conn"
  connQueues := fun c => if c = "conn1-a" then ["q1", "q2"] else []
  consumers := fun _ _ => []
  unacked := fun c q => if c = "conn1-a" ∧ q = "q1" then ["del2", "del1"] else []
  ready := fun q => if q = "q1" then ["del6", "del5", "del4", "del3"] else []

/-- A store state in which a dead connection holds two unacked payloads of a
queue that is not in its queues set, a consumer tag being recorded. -/
def unlistedBroker : Broker where
  connections := ["conn1-a"]
  heartbeat := fun _ => false
  connQueues := fun _ => []
  consumers := fun c q => if c = "conn1-a" ∧ q = "q1" then ["consumer1"] else []
  unacked := fun c q => if c = "conn1-a" ∧ q = "q1" then ["del2", "del1"] else []
  ready := fun _ => []

/-! ## Sample states -/

/-- A delivery of payload `x` with the keys of queue `q` on connection `c`. -/
def sampleDelivery : redisDelivery :=
  ⟨"x", "x", [], "queue:q:ready", "connection:c:queue:q:unacked", "queue:q:rejected", ""⟩

/-- A delivery of payload `old` with the keys of queue `q` on connection
`c`, whose successor queue is `next`. -/
def oldDelivery : redisDelivery :=
  ⟨"old", "old", [], "queue:q:ready", "connection:c:queue:q:unacked", "queue:q:rejected",
   "queue:next:ready"⟩

/-- A world whose lists are empty except the unacked list of
`sampleDelivery`, which holds `l`. -/
def sampleWorld (l : List String) : World :=
  ⟨Store.empty.set "connection:c:queue:q:unacked" l, 0, [], [], 0, 0⟩

end Rmq

namespace Rmq

/-! ## Store commands -/

theorem Store.set_same (s : Store) (k : String) (l : List String) : s.set k l k = l := by
  simp [Store.set]

theorem Store.set_other (s : Store) (k k1 : String) (l : List String) (h : k1 ≠ k) :
    s.set k l k1 = s k1 := by
  simp [Store.set, h]

theorem Store.set_self (s : Store) (k : String) : s.set k (s k) = s := by
  funext k1
  by_cases h : k1 = k
  · subst h; simp [Store.set]
  · simp [Store.set, h]

theorem removeFirstN_one (v : String) (l : List String) : removeFirstN 1 v l = l.erase v := by
  induction l with
  | nil => rfl
  | cons x xs ih =>
    by_cases h : x = v
    · subst h; simp [removeFirstN]
    · simp [removeFirstN, h, ih, List.erase_cons]

theorem LRem_one (s : Store) (k v : String) :
    LRem s k 1 v =
      (if v ∈ s k then 1 else 0, s.set k ((s k).erase v)) := by
  have h1 : removeFirstN (1 : Int).toNat v (s k) = (s k).erase v := removeFirstN_one v (s k)
  simp only [LRem, h1, Int.one_pos, if_true]
  congr 1
  by_cases h : v ∈ s k
  · have hl : 0 < (s k).length := List.length_pos_of_mem h
    simp [h, List.length_erase_of_mem h]; omega
  · simp [h, List.erase_of_not_mem h]

/-- Removing the first occurrence splits the list around it. -/
theorem erase_split (v : String) (l : List String) (h : v ∈ l) :
    ∃ pre post, v ∉ pre ∧ l = pre ++ v :: post ∧ l.erase v = pre ++ post := by
  obtain ⟨pre, post, hn, hl, he⟩ := List.exists_erase_eq h
  exact ⟨pre, post, hn, hl, he⟩

/-! ## Retry loops -/

theorem afterFails_nil (w : World) : afterFails w [] = w := rfl

theorem afterFails_cons (w : World) (e : DeliveryError) (es : List DeliveryError) :
    afterFails w (e :: es) =
      afterFails { trySend { w with calls := w.calls + 1 } e with
                   slept := (trySend { w with calls := w.calls + 1 } e).slept + 1 } es := rfl

theorem afterFails_store (w : World) (es : List DeliveryError) :
    (afterFails w es).store = w.store := by
  induction es generalizing w with
  | nil => rfl
  | cons e es ih => rw [afterFails_cons, ih]; rfl

theorem afterFails_calls (w : World) (es : List DeliveryError) :
    (afterFails w es).calls = w.calls + es.length := by
  induction es generalizing w with
  | nil => rfl
  | cons e es ih => rw [afterFails_cons, ih]; simp [trySend]; omega

theorem afterFails_slept (w : World) (es : List DeliveryError) :
    (afterFails w es).slept = w.slept + es.length := by
  induction es generalizing w with
  | nil => rfl
  | cons e es ih => rw [afterFails_cons, ih]; simp [trySend]; omega

theorem afterFails_offered (w : World) (es : List DeliveryError) :
    (afterFails w es).offered = w.offered ++ es := by
  induction es generalizing w with
  | nil => simp [afterFails_nil]
  | cons e es ih => rw [afterFails_cons, ih]; simp [trySend]

theorem afterFails_errChan (w : World) (es : List DeliveryError) :
    (afterFails w es).errChan = w.errChan ++ es.take (w.errChanCap - w.errChan.length) := by
  induction es generalizing w with
  | nil => simp [afterFails_nil]
  | cons e es ih =>
    rw [afterFails_cons, ih]
    by_cases h : w.errChan.length < w.errChanCap
    · obtain ⟨m, hm⟩ : ∃ m, w.errChanCap - w.errChan.length = m + 1 :=
        ⟨w.errChanCap - w.errChan.length - 1, by omega⟩
      have hm1 : w.errChanCap - (w.errChan.length + 1) = m := by omega
      simp [trySend, h, hm, hm1]
    · have h0 : w.errChanCap - w.errChan.length = 0 := by omega
      simp [trySend, h, h0]

theorem retryErrors_length (d : redisDelivery) (c : Nat) (errs : List String) :
    (retryErrors d c errs).length = errs.length := by
  induction errs generalizing c with
  | nil => rfl
  | cons e es ih => simp [retryErrors, ih]

theorem retryErrors_counts (d : redisDelivery) (c : Nat) (errs : List String) :
    (retryErrors d c errs).map (fun e => e.Count) = List.range' (c + 1) errs.length := by
  induction errs generalizing c with
  | nil => rfl
  | cons e es ih => simp [retryErrors, ih, List.range'_succ]

theorem AckLoop_failed_live (d : redisDelivery) (c : Nat) (e : String) (rest : List Reply)
    (w : World) :
    AckLoop d c (Reply.failed e false :: rest) w =
      AckLoop d (c + 1) rest
        { trySend { w with calls := w.calls + 1 } ⟨d, e, c + 1⟩ with
          slept := (trySend { w with calls := w.calls + 1 } ⟨d, e, c + 1⟩).slept + 1 } := by
  simp [AckLoop]

theorem pushLoop_failed_live (d : redisDelivery) (key value : String) (c : Nat) (e : String)
    (rest : List Reply) (w : World) :
    pushLoop d key value c (Reply.failed e false :: rest) w =
      pushLoop d key value (c + 1) rest
        { trySend { w with calls := w.calls + 1 } ⟨d, e, c + 1⟩ with
          slept := (trySend { w with calls := w.calls + 1 } ⟨d, e, c + 1⟩).slept + 1 } := by
  simp [pushLoop]

theorem AckLoop_liveFails (d : redisDelivery) (c : Nat) (errs : List String)
    (rs : List Reply) (w : World) :
    AckLoop d c (liveFails errs ++ rs) w =
      AckLoop d (c + errs.length) rs (afterFails w (retryErrors d c errs)) := by
  induction errs generalizing c w with
  | nil => rfl
  | cons e es ih =>
    show AckLoop d c (Reply.failed e false :: (liveFails es ++ rs)) w = _
    rw [AckLoop_failed_live, ih, retryErrors, afterFails_cons, List.length_cons,
      Nat.add_assoc, Nat.add_comm 1]

theorem pushLoop_liveFails (d : redisDelivery) (key value : String) (c : Nat)
    (errs : List String) (rs : List Reply) (w : World) :
    pushLoop d key value c (liveFails errs ++ rs) w =
      pushLoop d key value (c + errs.length) rs (afterFails w (retryErrors d c errs)) := by
  induction errs generalizing c w with
  | nil => rfl
  | cons e es ih =>
    show pushLoop d key value c (Reply.failed e false :: (liveFails es ++ rs)) w = _
    rw [pushLoop_failed_live, ih, retryErrors, afterFails_cons, List.length_cons,
      Nat.add_assoc, Nat.add_comm 1]

theorem AckLoop_served (d : redisDelivery) (c : Nat) (rest : List Reply) (w : World) :
    AckLoop d c (Reply.served :: rest) w =
      some (ackError d w.store, w.afterRem d.unackedKey d.payload, rest) := by
  by_cases h : d.payload ∈ w.store d.unackedKey <;>
    simp [AckLoop, LRem_one, h, ackError, World.afterRem]

theorem AckLoop_stopped (d : redisDelivery) (c : Nat) (e : String) (rest : List Reply)
    (w : World) :
    AckLoop d c (Reply.failed e true :: rest) w =
      some (some RmqError.ErrorConsumingStopped,
            trySend { w with calls := w.calls + 1 } ⟨d, e, c + 1⟩, rest) := by
  simp [AckLoop]

theorem pushLoop_served (d : redisDelivery) (key value : String) (c : Nat)
    (rest : List Reply) (w : World) :
    pushLoop d key value c (Reply.served :: rest) w = some (none, w.afterPush key value, rest) := by
  simp [pushLoop, World.afterPush]

theorem pushLoop_stopped (d : redisDelivery) (key value : String) (c : Nat) (e : String)
    (rest : List Reply) (w : World) :
    pushLoop d key value c (Reply.failed e true :: rest) w =
      some (some RmqError.ErrorConsumingStopped,
            trySend { w with calls := w.calls + 1 } ⟨d, e, c + 1⟩, rest) := by
  simp [pushLoop]

/-- A retry loop yields no result only when its script is used up by
failures after which the context was live: `Ack` returns as soon as a
command is served or the context is found cancelled. -/
theorem AckLoop_none_iff (d : redisDelivery) (rs : List Reply) :
    ∀ (c : Nat) (w : World),
      AckLoop d c rs w = none ↔ ∀ r ∈ rs, ∃ e, r = Reply.failed e false := by
  induction rs with
  | nil => intro c w; simp [AckLoop]
  | cons r rs ih =>
    intro c w
    cases r with
    | served => simp [AckLoop_served]
    | failed err done =>
      cases done with
      | true => simp [AckLoop_stopped]
      | false => rw [AckLoop_failed_live, ih]; simp

/-! ## Ack -/

theorem afterRem_store (w : World) (k v : String) :
    (w.afterRem k v).store = w.store.set k ((w.store k).erase v) := by
  simp [World.afterRem, LRem_one]

theorem afterRem_store_absent (w : World) (k v : String) (h : v ∉ w.store k) :
    (w.afterRem k v).store = w.store := by
  rw [afterRem_store, List.erase_of_not_mem h, Store.set_self]

theorem afterPush_store (w : World) (k v : String) :
    (w.afterPush k v).store = w.store.set k (v :: w.store k) := rfl

theorem Ack_served (d : redisDelivery) (w : World) (rest : List Reply) :
    Ack d (Reply.served :: rest) w =
      some (ackError d w.store, w.afterRem d.unackedKey d.payload, rest) :=
  AckLoop_served d 0 rest w

theorem ackError_present (d : redisDelivery) (s : Store) (h : d.payload ∈ s d.unackedKey) :
    ackError d s = none := if_pos h

theorem ackError_absent (d : redisDelivery) (s : Store) (h : d.payload ∉ s d.unackedKey) :
    ackError d s = some RmqError.ErrorNotFound := if_neg h

/-- C1: when the `LREM` issued by `Ack` is served, then either the raw
payload occurs in the unacked list, `Ack` returns nil and the unacked list
afterwards is the old one without the occurrence closest to the head (the
elements before and after it keep their order, the payload occurs once
less, every other key holds what it held), or the payload does not occur,
`Ack` returns `ErrorNotFound` and the store is unchanged. -/
theorem Ack_removes_one_occurrence (d : redisDelivery) (w : World) (rest : List Reply) :
    (d.payload ∈ w.store d.unackedKey →
      ∃ w1, Ack d (Reply.served :: rest) w = some (none, w1, rest) ∧
        (∃ pre post, d.payload ∉ pre ∧ w.store d.unackedKey = pre ++ d.payload :: post ∧
          w1.store d.unackedKey = pre ++ post) ∧
        (w1.store d.unackedKey).count d.payload + 1 = (w.store d.unackedKey).count d.payload ∧
        (w1.store d.unackedKey).length + 1 = (w.store d.unackedKey).length ∧
        ∀ k, k ≠ d.unackedKey → w1.store k = w.store k) ∧
    (d.payload ∉ w.store d.unackedKey →
      ∃ w1, Ack d (Reply.served :: rest) w = some (some RmqError.ErrorNotFound, w1, rest) ∧
        w1.store = w.store) := by
  constructor
  · intro h
    refine ⟨w.afterRem d.unackedKey d.payload, by rw [Ack_served, ackError_present d _ h],
      ?_, ?_, ?_, ?_⟩
    · obtain ⟨pre, post, hn, hl, he⟩ := erase_split d.payload _ h
      exact ⟨pre, post, hn, hl, by rw [afterRem_store, Store.set_same, he]⟩
    · have hc : 0 < (w.store d.unackedKey).count d.payload := List.count_pos_iff.mpr h
      rw [afterRem_store, Store.set_same, List.count_erase_self]
      omega
    · have hl : 0 < (w.store d.unackedKey).length := List.length_pos_of_mem h
      rw [afterRem_store, Store.set_same, List.length_erase_of_mem h]
      omega
    · intro k hk
      rw [afterRem_store]
      exact Store.set_other _ _ _ _ hk
  · intro h
    exact ⟨w.afterRem d.unackedKey d.payload, by rw [Ack_served, ackError_absent d _ h],
      afterRem_store_absent _ _ _ h⟩

/-- C1, at concrete inputs: with unacked list a, x, b, x the ack of x
succeeds; with unacked list a it returns `ErrorNotFound`. -/
theorem Ack_removes_one_occurrence_witness :
    (∃ w1, Ack sampleDelivery [Reply.served] (sampleWorld ["a", "x", "b", "x"]) =
        some (none, w1, []) ∧
      (∃ pre post, sampleDelivery.payload ∉ pre ∧
        (sampleWorld ["a", "x", "b", "x"]).store sampleDelivery.unackedKey =
          pre ++ sampleDelivery.payload :: post ∧
        w1.store sampleDelivery.unackedKey = pre ++ post) ∧
      (w1.store sampleDelivery.unackedKey).count sampleDelivery.payload + 1 =
        ((sampleWorld ["a", "x", "b", "x"]).store sampleDelivery.unackedKey).count
          sampleDelivery.payload ∧
      (w1.store sampleDelivery.unackedKey).length + 1 =
        ((sampleWorld ["a", "x", "b", "x"]).store sampleDelivery.unackedKey).length ∧
      ∀ k, k ≠ sampleDelivery.unackedKey →
        w1.store k = (sampleWorld ["a", "x", "b", "x"]).store k) ∧
    (∃ w1, Ack sampleDelivery [Reply.served] (sampleWorld ["a"]) =
        some (some RmqError.ErrorNotFound, w1, []) ∧
      w1.store = (sampleWorld ["a"]).store) :=
  ⟨(Ack_removes_one_occurrence sampleDelivery (sampleWorld ["a", "x", "b", "x"]) []).1
      (by decide),
   (Ack_removes_one_occurrence sampleDelivery (sampleWorld ["a"]) []).2 (by decide)⟩

/-- C2, as stated, fails: with two copies of the payload in the unacked
list (the same payload published and consumed twice) the second `Ack` of the
same delivery returns nil again, not `ErrorNotFound`. -/
theorem Ack_twice_on_duplicate_payload :
    sampleDelivery.payload ∈ (sampleWorld ["x", "x"]).store sampleDelivery.unackedKey ∧
    ∃ w1 w2,
      Ack sampleDelivery [Reply.served, Reply.served] (sampleWorld ["x", "x"]) =
        some (none, w1, [Reply.served]) ∧
      Ack sampleDelivery [Reply.served] w1 = some (none, w2, []) ∧
      ∀ w3, Ack sampleDelivery [Reply.served] w1 ≠
        some (some RmqError.ErrorNotFound, w3, []) := by
  refine ⟨by decide, _, _, rfl, rfl, fun w3 h => ?_⟩
  rw [Ack_served] at h
  simp only [Option.some.injEq, Prod.mk.injEq] at h
  exact absurd h.1 (by decide)

/-- C2, amended: when the raw payload occurs exactly once in the unacked
list and the store serves both commands, the first `Ack` returns nil and the
second `Ack` of the same delivery returns `ErrorNotFound`, leaving the store
as the first one left it. -/
theorem Ack_twice_unique_payload (d : redisDelivery) (w : World) (rest : List Reply)
    (h : (w.store d.unackedKey).count d.payload = 1) :
    ∃ w1 w2,
      Ack d (Reply.served :: Reply.served :: rest) w = some (none, w1, Reply.served :: rest) ∧
      Ack d (Reply.served :: rest) w1 = some (some RmqError.ErrorNotFound, w2, rest) ∧
      w2.store = w1.store := by
  have hm : d.payload ∈ w.store d.unackedKey := List.count_pos_iff.mp (by omega)
  have hn : d.payload ∉ (w.store d.unackedKey).erase d.payload := by
    intro hc
    have := List.count_pos_iff.mpr hc
    rw [List.count_erase_self] at this
    omega
  have hn1 : d.payload ∉ (w.afterRem d.unackedKey d.payload).store d.unackedKey := by
    rw [afterRem_store, Store.set_same]; exact hn
  exact ⟨w.afterRem d.unackedKey d.payload,
    (w.afterRem d.unackedKey d.payload).afterRem d.unackedKey d.payload,
    by rw [Ack_served, ackError_present d _ hm],
    by rw [Ack_served, ackError_absent d _ hn1],
    afterRem_store_absent _ _ _ hn1⟩

/-- C2 amended, at a concrete input: unacked list a, x. -/
theorem Ack_twice_unique_payload_witness :
    ((sampleWorld ["a", "x"]).store sampleDelivery.unackedKey).count sampleDelivery.payload = 1 ∧
    ∃ w1 w2,
      Ack sampleDelivery [Reply.served, Reply.served] (sampleWorld ["a", "x"]) =
        some (none, w1, [Reply.served]) ∧
      Ack sampleDelivery [Reply.served] w1 = some (some RmqError.ErrorNotFound, w2, []) ∧
      w2.store = w1.store :=
  ⟨by decide, Ack_twice_unique_payload sampleDelivery (sampleWorld ["a", "x"]) [] (by decide)⟩

/-- C8: the retry discipline of `Ack`.  After any number of failed `LREM`
commands with a live context, `Ack` issues one more; a served command ends
it with nil or `ErrorNotFound` and uses no further reply, the store being
changed by that one `LREM` only.  Each failure offered one error to the
channel, the k-th with `Count` k, whatever room the channel had (the buffer
took those it had room for, the others were dropped), and was followed by a
sleep.  If instead the context is found cancelled after one more failure,
`Ack` returns `ErrorConsumingStopped` having issued exactly as many commands
as there were failures, with the store unchanged. -/
theorem Ack_retry_discipline (d : redisDelivery) (w : World) (errs : List String)
    (e : String) (rest : List Reply) :
    (∃ w1, Ack d (liveFails errs ++ Reply.served :: rest) w =
        some (ackError d w.store, w1, rest) ∧
      w1.store = (LRem w.store d.unackedKey 1 d.payload).2 ∧
      w1.calls = w.calls + errs.length + 1 ∧
      w1.slept = w.slept + errs.length ∧
      w1.offered = w.offered ++ retryErrors d 0 errs ∧
      w1.errChan =
        w.errChan ++ (retryErrors d 0 errs).take (w.errChanCap - w.errChan.length)) ∧
    (retryErrors d 0 errs).map (fun x => x.Count) = List.range' 1 errs.length ∧
    (retryErrors d 0 errs).map (fun x => x.RedisErr) = errs ∧
    (∃ w1, Ack d (liveFails errs ++ Reply.failed e true :: rest) w =
        some (some RmqError.ErrorConsumingStopped, w1, rest) ∧
      w1.store = w.store ∧
      w1.calls = w.calls + (errs.length + 1) ∧
      w1.offered = w.offered ++ retryErrors d 0 errs ++ [⟨d, e, errs.length + 1⟩]) := by
  refine ⟨⟨_, by rw [Ack, AckLoop_liveFails, AckLoop_served, afterFails_store], ?_⟩, ?_, ?_,
    ⟨_, by rw [Ack, AckLoop_liveFails, AckLoop_stopped], ?_⟩⟩
  · simp [World.afterRem, afterFails_store, afterFails_calls, afterFails_slept,
      afterFails_offered, afterFails_errChan, retryErrors_length]
  · simpa using retryErrors_counts d 0 errs
  · generalize 0 = c
    induction errs generalizing c with
    | nil => rfl
    | cons x xs ih => simp [retryErrors, ih]
  · simp [trySend, afterFails_store, afterFails_calls, afterFails_offered, retryErrors_length]
    omega

/-! ## Reject, Push, Return and setPayload -/

theorem move_liveFails (d : redisDelivery) (key : String) (errs : List String)
    (rs : List Reply) (w : World) :
    move d key (liveFails errs ++ Reply.served :: rs) w =
      Ack d rs ((afterFails w (retryErrors d 0 errs)).afterPush key d.payload) := by
  simp only [move, pushLoop_liveFails, pushLoop_served]

theorem move_served (d : redisDelivery) (key : String) (rs : List Reply) (w : World) :
    move d key (Reply.served :: rs) w = Ack d rs (w.afterPush key d.payload) :=
  move_liveFails d key [] rs w

theorem setPayload_served (d : redisDelivery) (payload key : String) (rs : List Reply)
    (w : World) :
    setPayload d payload key (Reply.served :: rs) w =
      match Ack d rs (w.afterPush key payload) with
      | none => none
      | some (e, w2, rest2) => some (e, d, w2, rest2) := by
  simp only [setPayload, pushLoop_served, redisDelivery.Payload, withPayload]

theorem setPayload_liveFails (d : redisDelivery) (payload key : String) (errs : List String)
    (rs : List Reply) (w : World) :
    setPayload d payload key (liveFails errs ++ Reply.served :: rs) w =
      match Ack d rs ((afterFails w (retryErrors (withPayload d payload) 0 errs)).afterPush
          key payload) with
      | none => none
      | some (e, w2, rest2) => some (e, d, w2, rest2) := by
  simp only [setPayload, pushLoop_liveFails, pushLoop_served, redisDelivery.Payload, withPayload]

/-- Whatever the replies, the record the receiver of `setPayload` points to
when the call returns is the one it pointed to before. -/
theorem setPayload_receiver (d : redisDelivery) (payload key : String) (rs : List Reply)
    (w : World) (e : Option RmqError) (d1 : redisDelivery) (w1 : World) (rest : List Reply)
    (h : setPayload d payload key rs w = some (e, d1, w1, rest)) : d1 = d := by
  unfold setPayload at h
  cases hp : pushLoop (withPayload d payload) key (withPayload d payload).Payload 0 rs w with
  | none => simp [hp] at h
  | some o =>
    obtain ⟨e0, w0, r0⟩ := o
    cases e0 with
    | some e1 =>
      simp only [hp, Option.some.injEq, Prod.mk.injEq] at h
      exact h.2.1.symm
    | none =>
      simp only [hp] at h
      cases ha : Ack d r0 w0 with
      | none => simp [ha] at h
      | some o2 =>
        obtain ⟨e2, w2, r2⟩ := o2
        simp only [ha, Option.some.injEq, Prod.mk.injEq] at h
        exact h.2.1.symm

/-- The store after a served push of `v` onto `key` and a served removal of
`p` from another list `u`. -/
theorem push_then_rem_store (w : World) (key u v p : String) (hk : key ≠ u) :
    ((w.afterPush key v).afterRem u p).store =
      (w.store.set key (v :: w.store key)).set u ((w.store u).erase p) := by
  rw [afterRem_store, afterPush_store, Store.set_other _ _ _ _ (Ne.symm hk)]

theorem sum_lengths_set (s : Store) (key v : String) (ks : List String) (hn : ks.Nodup)
    (hm : key ∈ ks) :
    (ks.map (fun k => ((s.set key (v :: s key)) k).length)).sum =
      (ks.map (fun k => (s k).length)).sum + 1 := by
  induction ks with
  | nil => simp at hm
  | cons k ks ih =>
    rw [List.nodup_cons] at hn
    by_cases hk : k = key
    · subst hk
      have hsame : ∀ x ∈ ks, ((s.set k (v :: s k)) x).length = (s x).length := by
        intro x hx
        have hx1 : x ≠ k := fun hxk => hn.1 (hxk ▸ hx)
        rw [Store.set_other _ _ _ _ hx1]
      rw [List.map_cons, List.map_cons, List.sum_cons, List.sum_cons, Store.set_same,
        List.map_congr_left hsame, List.length_cons]
      omega
    · have hm1 : key ∈ ks := by
        rcases List.mem_cons.mp hm with h | h
        · exact absurd h.symm hk
        · exact h
      rw [List.map_cons, List.map_cons, List.sum_cons, List.sum_cons, ih hn.2 hm1,
        Store.set_other _ _ _ _ hk]
      omega

/-- A move whose two commands are served, applied to a delivery whose payload
is in the unacked list. -/
theorem move_present (d : redisDelivery) (key : String) (w : World) (rest : List Reply)
    (h : d.payload ∈ w.store d.unackedKey) (hk : key ≠ d.unackedKey) :
    ∃ w1, move d key (Reply.served :: Reply.served :: rest) w = some (none, w1, rest) ∧
      w1.store = (w.store.set key (d.payload :: w.store key)).set d.unackedKey
        ((w.store d.unackedKey).erase d.payload) := by
  have h1 : d.payload ∈ (w.afterPush key d.payload).store d.unackedKey := by
    rw [afterPush_store, Store.set_other _ _ _ _ (Ne.symm hk)]; exact h
  exact ⟨(w.afterPush key d.payload).afterRem d.unackedKey d.payload,
    by rw [move_served, Ack_served, ackError_present d _ h1],
    push_then_rem_store w key d.unackedKey d.payload d.payload hk⟩

/-- A move whose two commands are served, applied to a delivery whose payload
is not in the unacked list. -/
theorem move_stale (d : redisDelivery) (key : String) (w : World) (rest : List Reply)
    (h : d.payload ∉ w.store d.unackedKey) (hk : key ≠ d.unackedKey) :
    ∃ w1, move d key (Reply.served :: Reply.served :: rest) w =
        some (some RmqError.ErrorNotFound, w1, rest) ∧
      w1.store = w.store.set key (d.payload :: w.store key) := by
  have h1 : d.payload ∉ (w.afterPush key d.payload).store d.unackedKey := by
    rw [afterPush_store, Store.set_other _ _ _ _ (Ne.symm hk)]; exact h
  exact ⟨(w.afterPush key d.payload).afterRem d.unackedKey d.payload,
    by rw [move_served, Ack_served, ackError_absent d _ h1],
    by rw [afterRem_store_absent _ _ _ h1, afterPush_store]⟩

/-- C3: `Reject` of a delivery whose raw payload is in its unacked list,
with both store commands served and the three keys naming different lists:
it returns nil, the rejected list is the old one with the payload pushed
on, the unacked list lost the occurrence of the payload closest to its head
and nothing else, and the ready list, like every other list, is unchanged. -/
theorem Reject_moves_one (d : redisDelivery) (w : World) (rest : List Reply)
    (h : d.payload ∈ w.store d.unackedKey)
    (hju : d.rejectedKey ≠ d.unackedKey) (hrj : d.readyKey ≠ d.rejectedKey)
    (hru : d.readyKey ≠ d.unackedKey) :
    ∃ w1, Reject d (Reply.served :: Reply.served :: rest) w = some (none, w1, rest) ∧
      w1.store d.rejectedKey = d.payload :: w.store d.rejectedKey ∧
      (w1.store d.rejectedKey).length = (w.store d.rejectedKey).length + 1 ∧
      w1.store d.unackedKey = (w.store d.unackedKey).erase d.payload ∧
      (∃ pre post, d.payload ∉ pre ∧ w.store d.unackedKey = pre ++ d.payload :: post ∧
        w1.store d.unackedKey = pre ++ post) ∧
      (w1.store d.unackedKey).count d.payload + 1 = (w.store d.unackedKey).count d.payload ∧
      (w1.store d.unackedKey).length + 1 = (w.store d.unackedKey).length ∧
      w1.store d.readyKey = w.store d.readyKey ∧
      ∀ k, k ≠ d.rejectedKey → k ≠ d.unackedKey → w1.store k = w.store k := by
  obtain ⟨w1, hr, hs⟩ := move_present d d.rejectedKey w rest h hju
  have hj : w1.store d.rejectedKey = d.payload :: w.store d.rejectedKey := by
    rw [hs, Store.set_other _ _ _ _ hju, Store.set_same]
  have hu : w1.store d.unackedKey = (w.store d.unackedKey).erase d.payload := by
    rw [hs, Store.set_same]
  have ho : ∀ k, k ≠ d.rejectedKey → k ≠ d.unackedKey → w1.store k = w.store k := by
    intro k h1 h2
    rw [hs, Store.set_other _ _ _ _ h2, Store.set_other _ _ _ _ h1]
  refine ⟨w1, hr, hj, by rw [hj, List.length_cons], hu, ?_, ?_, ?_, ho _ hrj hru, ho⟩
  · obtain ⟨pre, post, hn, hl, he⟩ := erase_split d.payload _ h
    exact ⟨pre, post, hn, hl, by rw [hu, he]⟩
  · have hc : 0 < (w.store d.unackedKey).count d.payload := List.count_pos_iff.mpr h
    rw [hu, List.count_erase_self]
    omega
  · have hl : 0 < (w.store d.unackedKey).length := List.length_pos_of_mem h
    rw [hu, List.length_erase_of_mem h]
    omega

/-- C3, at a concrete input: unacked list a, x, b. -/
theorem Reject_moves_one_witness :
    ∃ w1, Reject sampleDelivery [Reply.served, Reply.served] (sampleWorld ["a", "x", "b"]) =
        some (none, w1, []) ∧
      w1.store "queue:q:rejected" = ["x"] ∧
      w1.store "connection:c:queue:q:unacked" = ["a", "b"] ∧
      w1.store "queue:q:ready" = [] := by
  obtain ⟨w1, hr, hj, _, hu, _, _, _, hy, _⟩ :=
    Reject_moves_one sampleDelivery (sampleWorld ["a", "x", "b"]) []
      (by decide) (by decide) (by decide) (by decide)
  exact ⟨w1, hr, hj, hu.trans (by decide), hy⟩

/-- The effect of `setPayload` on a delivery whose payload is in the unacked
list, both commands served. -/
theorem setPayload_present (d : redisDelivery) (payload key : String) (w : World)
    (rest : List Reply) (h : d.payload ∈ w.store d.unackedKey) (hk : key ≠ d.unackedKey) :
    ∃ w1, setPayload d payload key (Reply.served :: Reply.served :: rest) w =
        some (none, d, w1, rest) ∧
      w1.store key = payload :: w.store key ∧
      w1.store d.unackedKey = (w.store d.unackedKey).erase d.payload ∧
      (payload ≠ d.payload →
        (w1.store d.unackedKey).count payload = (w.store d.unackedKey).count payload) ∧
      ∀ k, k ≠ key → k ≠ d.unackedKey → w1.store k = w.store k := by
  have h1 : d.payload ∈ (w.afterPush key payload).store d.unackedKey := by
    rw [afterPush_store, Store.set_other _ _ _ _ (Ne.symm hk)]; exact h
  have hs := push_then_rem_store w key d.unackedKey payload d.payload hk
  refine ⟨(w.afterPush key payload).afterRem d.unackedKey d.payload,
    by rw [setPayload_served, Ack_served, ackError_present d _ h1], ?_, ?_, ?_, ?_⟩
  · rw [hs, Store.set_other _ _ _ _ hk, Store.set_same]
  · rw [hs, Store.set_same]
  · intro hne
    rw [hs, Store.set_same, List.count_erase_of_ne hne]
  · intro k hk1 hk2
    rw [hs, Store.set_other _ _ _ _ hk2, Store.set_other _ _ _ _ hk1]

/-- C5: `SetPayload` (and `SetPayloadAndReject`) of a delivery whose raw
payload is in its unacked list, both store commands served, the target list
being another list than the unacked one: it returns nil, the ready list
(the rejected list) is the old one with exactly the new string pushed on,
the unacked list lost one occurrence of the original raw payload and none
of the new string, and no other list changed.  The record the receiver
points to when the call returns, the second component of the result, is the
original delivery: its `payload`, `clearPayload` and every other field are
what they were, here and on every script of replies on which the call
returns; the new payload lives in the copy only, which is the delivery named
in the errors of the push loop. -/
theorem SetPayload_reroutes (d : redisDelivery) (new : String) (w : World)
    (rest : List Reply) (h : d.payload ∈ w.store d.unackedKey) :
    (d.readyKey ≠ d.unackedKey →
      ∃ d1 w1, SetPayload d new (Reply.served :: Reply.served :: rest) w =
          some (none, d1, w1, rest) ∧
        d1 = d ∧ d1.payload = d.payload ∧ d1.clearPayload = d.clearPayload ∧
        d1.Payload = d.Payload ∧
        w1.store d.readyKey = new :: w.store d.readyKey ∧
        w1.store d.unackedKey = (w.store d.unackedKey).erase d.payload ∧
        (new ≠ d.payload →
          (w1.store d.unackedKey).count new = (w.store d.unackedKey).count new) ∧
        ∀ k, k ≠ d.readyKey → k ≠ d.unackedKey → w1.store k = w.store k) ∧
    (d.rejectedKey ≠ d.unackedKey →
      ∃ d1 w1, SetPayloadAndReject d new (Reply.served :: Reply.served :: rest) w =
          some (none, d1, w1, rest) ∧
        d1 = d ∧ d1.payload = d.payload ∧ d1.clearPayload = d.clearPayload ∧
        d1.Payload = d.Payload ∧
        w1.store d.rejectedKey = new :: w.store d.rejectedKey ∧
        w1.store d.unackedKey = (w.store d.unackedKey).erase d.payload ∧
        (new ≠ d.payload →
          (w1.store d.unackedKey).count new = (w.store d.unackedKey).count new) ∧
        ∀ k, k ≠ d.rejectedKey → k ≠ d.unackedKey → w1.store k = w.store k) ∧
    (∀ replies e d1 w1 rest1,
      (SetPayload d new replies w = some (e, d1, w1, rest1) ∨
        SetPayloadAndReject d new replies w = some (e, d1, w1, rest1)) →
      d1 = d ∧ d1.payload = d.payload ∧ d1.clearPayload = d.clearPayload) ∧
    (∀ errs key, ∃ e w1,
      setPayload d new key (liveFails errs ++ Reply.served :: Reply.served :: rest) w =
          some (e, d, w1, rest) ∧
        w1.offered = w.offered ++ retryErrors (withPayload d new) 0 errs ∧
        (withPayload d new).payload = new ∧ (withPayload d new).clearPayload = new) := by
  refine ⟨fun hk => ?_, fun hk => ?_, ?_, ?_⟩
  · obtain ⟨w1, h1, h2⟩ := setPayload_present d new d.readyKey w rest h hk
    exact ⟨d, w1, h1, rfl, rfl, rfl, rfl, h2⟩
  · obtain ⟨w1, h1, h2⟩ := setPayload_present d new d.rejectedKey w rest h hk
    exact ⟨d, w1, h1, rfl, rfl, rfl, rfl, h2⟩
  · intro replies e d1 w1 rest1 hr
    have hd : d1 = d := by
      rcases hr with hr | hr
      · exact setPayload_receiver d new d.readyKey replies w e d1 w1 rest1 hr
      · exact setPayload_receiver d new d.rejectedKey replies w e d1 w1 rest1 hr
    subst hd
    exact ⟨rfl, rfl, rfl⟩
  · intro errs key
    refine ⟨_, _, by rw [setPayload_liveFails, Ack_served], ?_, rfl, rfl⟩
    simp [World.afterRem, World.afterPush, afterFails_offered]

/-- C5, the scenario of the specification: ready empty, unacked holding
`old`; after `SetPayload` of `new` the ready list holds `new`, the unacked
list is empty and the delivery still carries `old`; after
`SetPayloadAndReject` the rejected list holds `new`. -/
theorem SetPayload_reroutes_witness :
    (∃ d1 w1, SetPayload oldDelivery "new" [Reply.served, Reply.served]
        (sampleWorld ["old"]) = some (none, d1, w1, []) ∧
      d1.payload = "old" ∧ d1.Payload = "old" ∧
      w1.store "queue:q:ready" = ["new"] ∧ w1.store "connection:c:queue:q:unacked" = []) ∧
    (∃ d1 w1, SetPayloadAndReject oldDelivery "new" [Reply.served, Reply.served]
        (sampleWorld ["old"]) = some (none, d1, w1, []) ∧
      d1.payload = "old" ∧ d1.Payload = "old" ∧
      w1.store "queue:q:rejected" = ["new"] ∧ w1.store "connection:c:queue:q:unacked" = []) := by
  have key := SetPayload_reroutes oldDelivery "new" (sampleWorld ["old"]) [] (by decide)
  obtain ⟨d1, w1, h1, h0, _, _, _, h2, h3, _⟩ := key.1 (by decide)
  obtain ⟨d2, w2, k1, k0, _, _, _, k2, k3, _⟩ := key.2.1 (by decide)
  subst h0 k0
  exact ⟨⟨_, w1, h1, rfl, rfl, h2, h3.trans (by decide)⟩,
    ⟨_, w2, k1, rfl, rfl, k2, k3.trans (by decide)⟩⟩

theorem mem_deliveryKeys (d : redisDelivery) :
    d.readyKey ∈ deliveryKeys d ∧ d.unackedKey ∈ deliveryKeys d ∧
    d.rejectedKey ∈ deliveryKeys d ∧ pushTarget d ∈ deliveryKeys d := by
  unfold deliveryKeys pushTarget
  by_cases hp : d.pushKey = "" <;> simp [hp]

/-- A served move of a delivery whose payload is not in the unacked list:
`ErrorNotFound`, and yet one more stored payload. -/
theorem move_stale_count (d : redisDelivery) (key : String) (w : World) (rest : List Reply)
    (h : d.payload ∉ w.store d.unackedKey) (hk : key ≠ d.unackedKey)
    (hm : key ∈ deliveryKeys d) :
    ∃ w1, move d key (Reply.served :: Reply.served :: rest) w =
        some (some RmqError.ErrorNotFound, w1, rest) ∧
      w1.store key = d.payload :: w.store key ∧
      w1.store d.unackedKey = w.store d.unackedKey ∧
      w1.store ≠ w.store ∧
      storedCount d w1.store = storedCount d w.store + 1 := by
  obtain ⟨w1, hr, hs⟩ := move_stale d key w rest h hk
  have hkey : w1.store key = d.payload :: w.store key := by rw [hs, Store.set_same]
  refine ⟨w1, hr, hkey, by rw [hs, Store.set_other _ _ _ _ (Ne.symm hk)], ?_, ?_⟩
  · intro heq
    have := congrArg List.length (hkey.symm.trans (congrFun heq key))
    simp at this
  · rw [hs]
    exact sum_lengths_set w.store key d.payload (deliveryKeys d) (List.nodup_dedup _) hm

/-- C10: with both store commands served, `Reject`, `Return` and `Push` of a
delivery whose raw payload is not in its unacked list (the target being
another list than the unacked one) return `ErrorNotFound`, although the
target list has gained a copy of the payload; the unacked list is
unchanged, the store is not the one before the call, and the number of
payloads stored under the keys of the delivery has grown by one. -/
theorem move_not_atomic_on_NotFound (d : redisDelivery) (w : World) (rest : List Reply)
    (h : d.payload ∉ w.store d.unackedKey) :
    (d.rejectedKey ≠ d.unackedKey →
      ∃ w1, Reject d (Reply.served :: Reply.served :: rest) w =
          some (some RmqError.ErrorNotFound, w1, rest) ∧
        w1.store d.rejectedKey = d.payload :: w.store d.rejectedKey ∧
        w1.store d.unackedKey = w.store d.unackedKey ∧
        w1.store ≠ w.store ∧
        storedCount d w1.store = storedCount d w.store + 1) ∧
    (d.readyKey ≠ d.unackedKey →
      ∃ w1, Return d (Reply.served :: Reply.served :: rest) w =
          some (some RmqError.ErrorNotFound, w1, rest) ∧
        w1.store d.readyKey = d.payload :: w.store d.readyKey ∧
        w1.store d.unackedKey = w.store d.unackedKey ∧
        w1.store ≠ w.store ∧
        storedCount d w1.store = storedCount d w.store + 1) ∧
    (pushTarget d ≠ d.unackedKey →
      ∃ w1, Push d (Reply.served :: Reply.served :: rest) w =
          some (some RmqError.ErrorNotFound, w1, rest) ∧
        w1.store (pushTarget d) = d.payload :: w.store (pushTarget d) ∧
        w1.store d.unackedKey = w.store d.unackedKey ∧
        w1.store ≠ w.store ∧
        storedCount d w1.store = storedCount d w.store + 1) := by
  refine ⟨fun hk => move_stale_count d _ w rest h hk (mem_deliveryKeys d).2.2.1,
    fun hk => move_stale_count d _ w rest h hk (mem_deliveryKeys d).1, fun hk => ?_⟩
  have hp : Push d (Reply.served :: Reply.served :: rest) w =
      move d (pushTarget d) (Reply.served :: Reply.served :: rest) w := by
    unfold Push pushTarget Reject
    by_cases hpk : d.pushKey = "" <;> simp [hpk]
  rw [hp]
  exact move_stale_count d _ w rest h hk (mem_deliveryKeys d).2.2.2

/-- C10, at a concrete input: the payload `old` was already acked (all lists
empty); `Reject`, `Return` and `Push` each return `ErrorNotFound` and leave
one copy in the rejected list, the ready list and the list of the successor
queue. -/
theorem move_not_atomic_on_NotFound_witness :
    oldDelivery.payload ∉ (sampleWorld []).store oldDelivery.unackedKey ∧
    (∃ w1, Reject oldDelivery [Reply.served, Reply.served] (sampleWorld []) =
        some (some RmqError.ErrorNotFound, w1, []) ∧
      w1.store "queue:q:rejected" = ["old"] ∧
      storedCount oldDelivery w1.store = 1) ∧
    (∃ w1, Return oldDelivery [Reply.served, Reply.served] (sampleWorld []) =
        some (some RmqError.ErrorNotFound, w1, []) ∧
      w1.store "queue:q:ready" = ["old"] ∧
      storedCount oldDelivery w1.store = 1) ∧
    (∃ w1, Push oldDelivery [Reply.served, Reply.served] (sampleWorld []) =
        some (some RmqError.ErrorNotFound, w1, []) ∧
      w1.store "queue:next:ready" = ["old"] ∧
      storedCount oldDelivery w1.store = 1) := by
  have key := move_not_atomic_on_NotFound oldDelivery (sampleWorld []) [] (by decide)
  obtain ⟨w1, h1, h2, _, _, h5⟩ := key.1 (by decide)
  obtain ⟨w2, k1, k2, _, _, k5⟩ := key.2.1 (by decide)
  obtain ⟨w3, m1, m2, _, _, m5⟩ := key.2.2 (by decide)
  exact ⟨by decide, ⟨w1, h1, h2, h5.trans (by decide)⟩, ⟨w2, k1, k2, k5.trans (by decide)⟩,
    ⟨w3, m1, m2, m5.trans (by decide)⟩⟩

/-- Whatever the replies, a push loop that returns has either given up with
the store untouched or pushed the value once. -/
theorem pushLoop_outcome (sender : redisDelivery) (key value : String) (rs : List Reply) :
    ∀ (c : Nat) (w : World) (e : Option RmqError) (w1 : World) (rest : List Reply),
      pushLoop sender key value c rs w = some (e, w1, rest) →
      (e = some RmqError.ErrorConsumingStopped ∧ w1.store = w.store) ∨
      (e = none ∧ w1.store = (LPush w.store key value).2) := by
  induction rs with
  | nil => intro c w e w1 rest h; simp [pushLoop] at h
  | cons r rs ih =>
    intro c w e w1 rest h
    cases r with
    | served =>
      rw [pushLoop_served] at h
      simp only [Option.some.injEq, Prod.mk.injEq] at h
      obtain ⟨h1, h2, _⟩ := h
      exact Or.inr ⟨h1.symm, by rw [← h2]; rfl⟩
    | failed err done =>
      cases done with
      | true =>
        rw [pushLoop_stopped] at h
        simp only [Option.some.injEq, Prod.mk.injEq] at h
        obtain ⟨h1, h2, _⟩ := h
        exact Or.inl ⟨h1.symm, by rw [← h2]; rfl⟩
      | false =>
        rw [pushLoop_failed_live] at h
        have key := ih _ _ _ _ _ h
        exact key

/-- Whatever the replies, an `Ack` loop that returns has either given up with
the store untouched or issued its one `LREM`. -/
theorem AckLoop_outcome (d : redisDelivery) (rs : List Reply) :
    ∀ (c : Nat) (w : World) (e : Option RmqError) (w1 : World) (rest : List Reply),
      AckLoop d c rs w = some (e, w1, rest) →
      (e = some RmqError.ErrorConsumingStopped ∧ w1.store = w.store) ∨
      (e = ackError d w.store ∧ w1.store = (LRem w.store d.unackedKey 1 d.payload).2) := by
  induction rs with
  | nil => intro c w e w1 rest h; simp [AckLoop] at h
  | cons r rs ih =>
    intro c w e w1 rest h
    cases r with
    | served =>
      rw [AckLoop_served] at h
      simp only [Option.some.injEq, Prod.mk.injEq] at h
      obtain ⟨h1, h2, _⟩ := h
      exact Or.inr ⟨h1.symm, by rw [← h2]; rfl⟩
    | failed err done =>
      cases done with
      | true =>
        rw [AckLoop_stopped] at h
        simp only [Option.some.injEq, Prod.mk.injEq] at h
        obtain ⟨h1, h2, _⟩ := h
        exact Or.inl ⟨h1.symm, by rw [← h2]; rfl⟩
      | false =>
        rw [AckLoop_failed_live] at h
        have key := ih _ _ _ _ _ h
        exact key

/-- Whatever the replies, a move that returns has either given up before the
push, or pushed and given up before the removal, or pushed and removed. -/
theorem move_outcome (d : redisDelivery) (key : String) (rs : List Reply) (w : World)
    (e : Option RmqError) (w1 : World) (rest : List Reply)
    (h : move d key rs w = some (e, w1, rest)) :
    (e = some RmqError.ErrorConsumingStopped ∧ w1.store = w.store) ∨
    (e = some RmqError.ErrorConsumingStopped ∧ w1.store = (LPush w.store key d.payload).2) ∨
    (e = ackError d (LPush w.store key d.payload).2 ∧
      w1.store = (LRem (LPush w.store key d.payload).2 d.unackedKey 1 d.payload).2) := by
  unfold move at h
  cases hp : pushLoop d key d.payload 0 rs w with
  | none => rw [hp] at h; simp at h
  | some o =>
    obtain ⟨e0, w0, r0⟩ := o
    rw [hp] at h
    rcases pushLoop_outcome d key d.payload rs 0 w e0 w0 r0 hp with ⟨he, hs⟩ | ⟨he, hs⟩
    · subst he
      simp only [Option.some.injEq, Prod.mk.injEq] at h
      obtain ⟨h1, h2, _⟩ := h
      exact Or.inl ⟨h1.symm, by rw [← h2, hs]⟩
    · subst he
      simp only at h
      rcases AckLoop_outcome d r0 0 w0 e w1 rest h with ⟨he, hs1⟩ | ⟨he, hs1⟩
      · exact Or.inr (Or.inl ⟨he, by rw [hs1, hs]⟩)
      · exact Or.inr (Or.inr ⟨by rw [he, hs], by rw [hs1, hs]⟩)

/-- C4: `Push`.  With an empty `pushKey` it is `Reject`: same result, same
world, for every script of replies.  With a configured `pushKey`, after any
number of failed attempts with a live context the payload is pushed onto the
`pushKey` list and then removed from the unacked list by the `Ack` that
follows, whose verdict is the result; and for every script, whatever `Push`
returns, the store is the one before the call, or that with the payload
pushed, or that with the payload pushed and acked, so that the rejected
list, a list other than those two, is unchanged. -/
theorem Push_cases (d : redisDelivery) (w : World) (replies : List Reply) :
    (d.pushKey = "" → Push d replies w = Reject d replies w) ∧
    (d.pushKey ≠ "" →
      (∀ errs1 errs2 rest, ∃ w1,
        Push d (liveFails errs1 ++ Reply.served :: (liveFails errs2 ++ Reply.served :: rest)) w =
          some (ackError d (LPush w.store d.pushKey d.payload).2, w1, rest) ∧
        w1.store = (LRem (LPush w.store d.pushKey d.payload).2 d.unackedKey 1 d.payload).2 ∧
        w1.calls = w.calls + errs1.length + errs2.length + 2) ∧
      (∀ e w1 rest, Push d replies w = some (e, w1, rest) →
        (e = some RmqError.ErrorConsumingStopped ∧ w1.store = w.store) ∨
        (e = some RmqError.ErrorConsumingStopped ∧
          w1.store = (LPush w.store d.pushKey d.payload).2) ∨
        (e = ackError d (LPush w.store d.pushKey d.payload).2 ∧
          w1.store = (LRem (LPush w.store d.pushKey d.payload).2 d.unackedKey 1 d.payload).2)) ∧
      (d.pushKey ≠ d.rejectedKey → d.unackedKey ≠ d.rejectedKey →
        ∀ e w1 rest, Push d replies w = some (e, w1, rest) →
          w1.store d.rejectedKey = w.store d.rejectedKey)) := by
  refine ⟨fun h => by simp [Push, h], fun h => ⟨?_, ?_, ?_⟩⟩
  · intro errs1 errs2 rest
    refine ⟨(afterFails ((afterFails w (retryErrors d 0 errs1)).afterPush d.pushKey d.payload)
        (retryErrors d 0 errs2)).afterRem d.unackedKey d.payload, ?_, ?_, ?_⟩
    · rw [Push, if_neg h, move_liveFails, Ack, AckLoop_liveFails, AckLoop_served,
        afterFails_store]
      simp only [World.afterPush, afterFails_store]
    · simp [World.afterRem, World.afterPush, afterFails_store]
    · simp [World.afterRem, World.afterPush, afterFails_calls, retryErrors_length]
      omega
  · intro e w1 rest hr
    rw [Push, if_neg h] at hr
    exact move_outcome d d.pushKey replies w e w1 rest hr
  · intro hpj huj e w1 rest hr
    rw [Push, if_neg h] at hr
    rcases move_outcome d d.pushKey replies w e w1 rest hr with ⟨_, hs⟩ | ⟨_, hs⟩ | ⟨_, hs⟩
    · rw [hs]
    · rw [hs]; exact Store.set_other _ _ _ _ (Ne.symm hpj)
    · rw [hs, LRem_one]
      show Store.set _ _ _ _ = _
      rw [Store.set_other _ _ _ _ (Ne.symm huj)]
      exact Store.set_other _ _ _ _ (Ne.symm hpj)

/-- C4, at concrete inputs: a delivery without successor queue, and one with
the successor queue `next` whose first push attempt fails. -/
theorem Push_cases_witness :
    Push sampleDelivery [Reply.served, Reply.served] (sampleWorld ["x"]) =
      Reject sampleDelivery [Reply.served, Reply.served] (sampleWorld ["x"]) ∧
    (∃ w1, Push oldDelivery
        (liveFails ["timeout"] ++ Reply.served :: (liveFails [] ++ Reply.served :: []))
        (sampleWorld ["old"]) = some (none, w1, []) ∧
      w1.store "queue:next:ready" = ["old"] ∧
      w1.store "connection:c:queue:q:unacked" = [] ∧
      w1.store "queue:q:rejected" = [] ∧
      w1.calls = 3) := by
  refine ⟨(Push_cases sampleDelivery (sampleWorld ["x"]) _).1 (by decide), ?_⟩
  obtain ⟨w1, h1, h2, h3⟩ :=
    ((Push_cases oldDelivery (sampleWorld ["old"]) []).2 (by decide)).1 ["timeout"] [] []
  exact ⟨w1, h1, by rw [h2]; decide, by rw [h2]; decide, by rw [h2]; decide, h3⟩

/-! ## Signal registry -/

/-- C9: the laws of the signal registry.  A registry from `NewSigChannels`
has an allocated map and `Get` returns nil for every name.  On a registry
whose map is allocated, `Add` of `c` under `n` succeeds, `Get` of `n` then
returns `c`, `Get` of another name is unchanged, and a later `Add` under `n`
replaces the channel.  After `Remove` of `n`, `Get` of `n` returns nil and
`Get` of another name is unchanged.  `Add` and `Remove` keep the map
allocated. -/
theorem SigChannels_laws (r : SigChannels) (n m : String) (c c2 : SigChan) (hm : m ≠ n) :
    (NewSigChannels.m.isSome = true ∧ ∀ k, NewSigChannels.Get k = none) ∧
    (r.m.isSome = true →
      ∃ r1, r.Add n c = some r1 ∧ r1.Get n = c ∧ r1.Get m = r.Get m ∧ r1.m.isSome = true ∧
        ∃ r2, r1.Add n c2 = some r2 ∧ r2.Get n = c2 ∧ r2.Get m = r.Get m) ∧
    (r.Remove n).Get n = none ∧
    (r.Remove n).Get m = r.Get m ∧
    (r.Remove n).m.isSome = r.m.isSome := by
  refine ⟨⟨rfl, fun k => rfl⟩, ?_, ?_, ?_, ?_⟩
  · intro hr
    obtain ⟨f⟩ := r
    cases f with
    | none => simp at hr
    | some f =>
      refine ⟨_, rfl, ?_, ?_, rfl, _, rfl, ?_, ?_⟩
      · simp [SigChannels.Get]
      · simp [SigChannels.Get, hm]
      · simp [SigChannels.Get]
      · simp [SigChannels.Get, hm]
  · obtain ⟨f⟩ := r
    cases f <;> simp [SigChannels.Remove, SigChannels.Get]
  · obtain ⟨f⟩ := r
    cases f <;> simp [SigChannels.Remove, SigChannels.Get, hm]
  · obtain ⟨f⟩ := r
    cases f <;> simp [SigChannels.Remove]

/-- C9, at a concrete input: a fresh registry, names a and b, channels 1
and 2. -/
theorem SigChannels_laws_witness :
    ∃ r1, NewSigChannels.Add "a" (some 1) = some r1 ∧ r1.Get "a" = some 1 ∧
      r1.Get "b" = none ∧
      (∃ r2, r1.Add "a" (some 2) = some r2 ∧ r2.Get "a" = some 2) ∧
      (r1.Remove "a").Get "a" = none := by
  obtain ⟨r1, h1, h2, h3, h4, r2, h5, h6, _⟩ :=
    (SigChannels_laws NewSigChannels "a" "b" (some 1) (some 2) (by decide)).2.1 rfl
  exact ⟨r1, h1, h2, h3, ⟨r2, h5, h6⟩,
    (SigChannels_laws r1 "a" "b" (some 1) (some 2) (by decide)).2.2.1⟩

/-! ## Conservation over a run -/

theorem storeTotal_push (b : Binding) (hb : b.Distinct) (st : Store) (key v : String)
    (hkey : key = b.readyKey ∨ key = b.rejectedKey ∨ (key = b.pushKey ∧ b.pushKey ≠ "")) :
    storeTotal b (st.set key (v :: st key)) = storeTotal b st + 1 := by
  obtain ⟨h1, h2, h3, h4, h5⟩ := hb
  unfold storeTotal Store.set
  rcases hkey with h | h | ⟨h, hne⟩
  · subst h
    have e1 : ¬ b.unackedKey = b.readyKey := Ne.symm h1
    have e2 : ¬ b.rejectedKey = b.readyKey := Ne.symm h2
    simp only [if_true, if_neg e1, if_neg e2, List.length_cons]
    by_cases hp : b.pushKey = "" ∨ b.pushKey = b.readyKey
    · simp only [if_pos hp]; omega
    · have hp2 : ¬ b.pushKey = b.readyKey := fun h => hp (Or.inr h)
      simp only [if_neg hp, if_neg hp2]; omega
  · subst h
    have e1 : ¬ b.unackedKey = b.rejectedKey := h3
    have e2 : ¬ b.readyKey = b.rejectedKey := h2
    simp only [if_true, if_neg e1, if_neg e2, if_neg h5, List.length_cons]
    omega
  · subst h
    have e1 : ¬ b.unackedKey = b.pushKey := Ne.symm h4
    have e2 : ¬ b.rejectedKey = b.pushKey := Ne.symm h5
    by_cases hp : b.pushKey = b.readyKey
    · rw [hp] at e1 e2 ⊢
      simp only [if_true, if_neg e1, if_neg e2, List.length_cons, or_true]; omega
    · simp only [if_true, if_neg e1, if_neg e2, List.length_cons]
      have hp1 : ¬ (b.pushKey = "" ∨ b.pushKey = b.readyKey) := by
        rintro (h | h)
        · exact hne h
        · exact hp h
      have hp3 : ¬ b.readyKey = b.pushKey := Ne.symm hp
      simp only [if_neg hp1, if_neg hp3]; omega

theorem storeTotal_setUnacked (b : Binding) (hb : b.Distinct) (st : Store) (l : List String) :
    storeTotal b (st.set b.unackedKey l) + (st b.unackedKey).length =
      storeTotal b st + l.length := by
  obtain ⟨h1, h2, h3, h4, h5⟩ := hb
  unfold storeTotal
  by_cases hp : b.pushKey = "" ∨ b.pushKey = b.readyKey
  · simp [Store.set, hp, h1, Ne.symm h3]; omega
  · simp [Store.set, hp, h1, Ne.symm h3, h4]; omega

theorem storeTotal_setReady (b : Binding) (hb : b.Distinct) (st : Store) (l : List String) :
    storeTotal b (st.set b.readyKey l) + (st b.readyKey).length =
      storeTotal b st + l.length := by
  obtain ⟨h1, h2, h3, h4, h5⟩ := hb
  unfold storeTotal
  by_cases hp : b.pushKey = "" ∨ b.pushKey = b.readyKey
  · simp [Store.set, hp, Ne.symm h1, Ne.symm h2]; omega
  · have hp2 : b.pushKey ≠ b.readyKey := fun h => hp (Or.inr h)
    simp [Store.set, hp, Ne.symm h1, Ne.symm h2, hp2]; omega

theorem Push_eq_move (d : redisDelivery) (rs : List Reply) (w : World) :
    Push d rs w = move d (pushTarget d) rs w := by
  unfold Push pushTarget Reject
  by_cases hpk : d.pushKey = "" <;> simp [hpk]

theorem publish_conserves (b : Binding) (hb : b.Distinct) (s : Sys) (p : String)
    (hB : s.Bound b) (hT : s.total b = s.published) :
    (publish b p s).Bound b ∧ (publish b p s).total b = (publish b p s).published := by
  refine ⟨hB, ?_⟩
  have h := storeTotal_push b hb s.world.store b.readyKey p (Or.inl rfl)
  simp only [Sys.total, publish, LPush] at hT ⊢
  omega

theorem consume_conserves (b : Binding) (hb : b.Distinct) (s : Sys)
    (hB : s.Bound b) (hT : s.total b = s.published) :
    (consume b s).Bound b ∧ (consume b s).total b = (consume b s).published := by
  unfold consume RPopLPush
  cases hl : (s.world.store b.readyKey).getLast? with
  | none => exact ⟨hB, hT⟩
  | some v =>
    constructor
    · intro d hd
      simp only [List.mem_append, List.mem_singleton] at hd
      rcases hd with hd | rfl
      · exact hB d hd
      · exact ⟨rfl, rfl, rfl, rfl⟩
    · have hne : s.world.store b.readyKey ≠ [] := by
        intro h0; rw [h0] at hl; simp at hl
      have hlen : 0 < (s.world.store b.readyKey).length := List.length_pos.mpr hne
      have h1 := storeTotal_setReady b hb s.world.store (s.world.store b.readyKey).dropLast
      have h2 := storeTotal_setUnacked b hb
        (s.world.store.set b.readyKey (s.world.store b.readyKey).dropLast)
        (v :: (s.world.store.set b.readyKey (s.world.store b.readyKey).dropLast) b.unackedKey)
      simp only [List.length_dropLast, List.length_cons] at h1 h2
      simp only [Sys.total] at hT ⊢
      omega

theorem finish_Ack_conserves (b : Binding) (hb : b.Distinct) (s : Sys) (i : Nat)
    (hB : s.Bound b) (hT : s.total b = s.published) :
    (finish Ack true i s).Bound b ∧
      (finish Ack true i s).total b = (finish Ack true i s).published := by
  unfold finish
  cases hg : s.deliveries.get? i with
  | none => exact ⟨hB, hT⟩
  | some d =>
    have hd : d ∈ s.deliveries := List.get?_mem hg
    have hu : d.unackedKey = b.unackedKey := (hB d hd).2.1
    have hc : calm 2 = [Reply.served, Reply.served] := rfl
    simp only [hc, Ack_served]
    by_cases hm : d.payload ∈ s.world.store d.unackedKey
    · rw [ackError_present d _ hm]
      refine ⟨hB, ?_⟩
      have hlen : 0 < (s.world.store b.unackedKey).length := by
        rw [← hu]; exact List.length_pos_of_mem hm
      have h1 := storeTotal_setUnacked b hb s.world.store
        ((s.world.store b.unackedKey).erase d.payload)
      rw [List.length_erase_of_mem (hu ▸ hm)] at h1
      simp only [Sys.total, afterRem_store, hu, if_true] at hT ⊢
      omega
    · rw [ackError_absent d _ hm]
      refine ⟨hB, ?_⟩
      simp only [Sys.total, afterRem_store_absent _ _ _ hm] at hT ⊢
      exact hT

theorem finish_move_conserves (b : Binding) (hb : b.Distinct) (s : Sys) (i : Nat)
    (tgt : redisDelivery → String)
    (htgt : ∀ d ∈ s.deliveries, tgt d = b.readyKey ∨ tgt d = b.rejectedKey ∨
      (tgt d = b.pushKey ∧ b.pushKey ≠ ""))
    (hB : s.Bound b) (hT : s.total b = s.published)
    (hfresh : ∀ d, s.deliveries.get? i = some d → d.payload ∈ s.world.store d.unackedKey) :
    (finish (fun d => move d (tgt d)) false i s).Bound b ∧
      (finish (fun d => move d (tgt d)) false i s).total b =
        (finish (fun d => move d (tgt d)) false i s).published := by
  unfold finish
  cases hg : s.deliveries.get? i with
  | none => exact ⟨hB, hT⟩
  | some d =>
    have hd : d ∈ s.deliveries := List.get?_mem hg
    have hu : d.unackedKey = b.unackedKey := (hB d hd).2.1
    have hm := hfresh d hg
    have hk : tgt d ≠ d.unackedKey := by
      obtain ⟨h1, h2, h3, h4, h5⟩ := hb
      rw [hu]
      rcases htgt d hd with h | h | ⟨h, _⟩ <;> rw [h]
      · exact h1
      · exact Ne.symm h3
      · exact h4
    have hc : calm 2 = [Reply.served, Reply.served] := rfl
    obtain ⟨w1, hr, hs⟩ := move_present d (tgt d) s.world [] hm hk
    simp only [hc, hr]
    refine ⟨hB, ?_⟩
    have hlen : 0 < (s.world.store b.unackedKey).length := by
      rw [← hu]; exact List.length_pos_of_mem hm
    have h1 := storeTotal_push b hb s.world.store (tgt d) d.payload (htgt d hd)
    have h2 := storeTotal_setUnacked b hb
      (s.world.store.set (tgt d) (d.payload :: s.world.store (tgt d)))
      ((s.world.store b.unackedKey).erase d.payload)
    rw [Store.set_other _ _ _ _ (by rw [← hu]; exact Ne.symm hk),
      List.length_erase_of_mem (hu ▸ hm)] at h2
    simp only [Sys.total, hs, hu, Bool.false_eq_true, if_false] at hT ⊢
    omega

theorem step_conserves (b : Binding) (hb : b.Distinct) (s : Sys) (op : Op)
    (hB : s.Bound b) (hT : s.total b = s.published) (hf : op.stale s = false) :
    (step b s op).Bound b ∧ (step b s op).total b = (step b s op).published := by
  have hfresh : ∀ i, (match s.deliveries.get? i with
      | none => false
      | some d => decide (d.payload ∉ s.world.store d.unackedKey)) = false →
      ∀ d, s.deliveries.get? i = some d → d.payload ∈ s.world.store d.unackedKey := by
    intro i h d hd
    rw [hd] at h
    simpa using h
  cases op with
  | publish p => exact publish_conserves b hb s p hB hT
  | consume => exact consume_conserves b hb s hB hT
  | ack i => exact finish_Ack_conserves b hb s i hB hT
  | reject i =>
    exact finish_move_conserves b hb s i (fun d => d.rejectedKey)
      (fun d hd => Or.inr (Or.inl (hB d hd).2.2.1)) hB hT (hfresh i hf)
  | ret i =>
    exact finish_move_conserves b hb s i (fun d => d.readyKey)
      (fun d hd => Or.inl (hB d hd).1) hB hT (hfresh i hf)
  | push i =>
    have hP : Push = fun d => move d (pushTarget d) := by
      funext d rs w; exact Push_eq_move d rs w
    show (finish Push false i s).Bound b ∧
      (finish Push false i s).total b = (finish Push false i s).published
    rw [hP]
    refine finish_move_conserves b hb s i pushTarget (fun d hd => ?_) hB hT (hfresh i hf)
    obtain ⟨_, _, hj, hp⟩ := hB d hd
    unfold pushTarget
    by_cases hpk : d.pushKey = ""
    · rw [if_pos hpk]; exact Or.inr (Or.inl hj)
    · rw [if_neg hpk]; exact Or.inr (Or.inr ⟨hp, hp ▸ hpk⟩)

theorem run_conserves (b : Binding) (hb : b.Distinct) (ops : List Op) :
    ∀ s : Sys, s.Bound b → s.total b = s.published → Fresh b ops s →
      (run b ops s).total b = (run b ops s).published := by
  induction ops with
  | nil => intro s _ hT _; exact hT
  | cons op ops ih =>
    intro s hB hT hf
    obtain ⟨hB1, hT1⟩ := step_conserves b hb s op hB hT hf.1
    exact ih (step b s op) hB1 hT1 hf.2

theorem step_published (b : Binding) (s : Sys) (op : Op) :
    (step b s op).published = s.published + (if op.isPublish then 1 else 0) := by
  cases op with
  | publish p => rfl
  | consume =>
    show (consume b s).published = _
    unfold consume
    split <;> rfl
  | ack i =>
    show (finish Ack true i s).published = _
    unfold finish
    split
    · rfl
    · split <;> rfl
  | reject i =>
    show (finish Reject false i s).published = _
    unfold finish
    split
    · rfl
    · split <;> rfl
  | push i =>
    show (finish Push false i s).published = _
    unfold finish
    split
    · rfl
    · split <;> rfl
  | ret i =>
    show (finish Return false i s).published = _
    unfold finish
    split
    · rfl
    · split <;> rfl

theorem run_published (b : Binding) (ops : List Op) :
    ∀ s : Sys, (run b ops s).published = s.published + (ops.filter Op.isPublish).length := by
  induction ops with
  | nil => intro s; rfl
  | cons op ops ih =>
    intro s
    show (run b ops (step b s op)).published = _
    rw [ih, step_published]
    cases h : op.isPublish
    · simp [List.filter, h]
    · simp [List.filter, h]; omega

/-- C6, as stated, fails: publish x, consume it, reject the delivery, reject
it again.  The second `Reject` pushes a second copy onto the rejected list
before its `Ack` reports `ErrorNotFound`, so the lists hold two payloads for
one publish. -/
theorem conservation_fails_on_repeated_Reject :
    (run sampleBinding [Op.publish "x", Op.consume, Op.reject 0, Op.reject 0]
        (Sys.init 0)).total sampleBinding = 2 ∧
    (run sampleBinding [Op.publish "x", Op.consume, Op.reject 0, Op.reject 0]
        (Sys.init 0)).published = 1 ∧
    (run sampleBinding [Op.publish "x", Op.consume, Op.reject 0, Op.reject 0]
        (Sys.init 0)).world.store "queue:q:rejected" = ["x", "x"] ∧
    (run sampleBinding [Op.publish "x", Op.consume] (Sys.init 0)).deliveries.map
        (fun d => d.payload) = ["x"] ∧
    (run sampleBinding [Op.publish "x", Op.consume, Op.reject 0, Op.reject 0]
        (Sys.init 0)).total sampleBinding ≠
      (run sampleBinding [Op.publish "x", Op.consume, Op.reject 0, Op.reject 0]
        (Sys.init 0)).published := by
  decide

/-- C6, amended: starting from empty lists, after any finite sequence of
publish, consume and delivery operations against a store that does not
fail, in which no `Reject`, `Push` or `Return` is applied to a delivery
whose payload has already left the unacked list, the sum
`|ready| + |unacked| + |rejected| + |acked|` equals the number of publishes
(the keys of the binding naming different lists). -/
theorem conservation_over_fresh_runs (b : Binding) (hb : b.Distinct) (cap : Nat)
    (ops : List Op) (hf : Fresh b ops (Sys.init cap)) :
    (run b ops (Sys.init cap)).total b = (ops.filter Op.isPublish).length ∧
    (run b ops (Sys.init cap)).published = (ops.filter Op.isPublish).length := by
  have hB : (Sys.init cap).Bound b := by
    intro d hd; simp [Sys.init] at hd
  have hT : (Sys.init cap).total b = (Sys.init cap).published := by
    simp [Sys.total, storeTotal, Sys.init, World.init, Store.empty]
  have hp := run_published b ops (Sys.init cap)
  have hp0 : (Sys.init cap).published = 0 := rfl
  rw [hp0, Nat.zero_add] at hp
  exact ⟨(run_conserves b hb ops _ hB hT hf).trans hp, hp⟩

/-- C6 amended, at a concrete run: four publishes (x twice), all consumed,
then an ack, a reject, a push, a return, a further consume, an ack of the
returned payload and an ack of the rejected one, which finds nothing. -/
theorem conservation_over_fresh_runs_witness :
    sampleBinding.Distinct ∧
    Fresh sampleBinding
      [Op.publish "x", Op.publish "y", Op.publish "z", Op.publish "x", Op.consume, Op.consume,
       Op.consume, Op.consume, Op.ack 0, Op.reject 1, Op.push 2, Op.ret 3, Op.consume,
       Op.ack 4, Op.ack 1] (Sys.init 0) ∧
    (run sampleBinding
      [Op.publish "x", Op.publish "y", Op.publish "z", Op.publish "x", Op.consume, Op.consume,
       Op.consume, Op.consume, Op.ack 0, Op.reject 1, Op.push 2, Op.ret 3, Op.consume,
       Op.ack 4, Op.ack 1] (Sys.init 0)).total sampleBinding = 4 :=
  ⟨by decide, by decide,
   (conservation_over_fresh_runs sampleBinding (by decide) 0 _ (by decide)).1⟩

/-! ## Cleaner -/

theorem getLast?_eq_some_split (l : List String) (v : String) (h : l.getLast? = some v) :
    l = l.dropLast ++ [v] := by
  have hne : l ≠ [] := by intro h0; rw [h0] at h; simp at h
  have h1 := List.dropLast_append_getLast hne
  rw [List.getLast?_eq_getLast _ hne] at h
  simp only [Option.some.injEq] at h
  rw [h] at h1
  exact h1.symm

/-- The drain loop, given at least as much fuel as the list is long, empties
the unacked list onto the head of the ready list, in order, and counts its
elements. -/
theorem drain_fields (cid q : String) :
    ∀ (fuel : Nat) (b : Broker) (n : Nat), (b.unacked cid q).length ≤ fuel →
      (drain cid q fuel b n).1 = n + (b.unacked cid q).length ∧
      (drain cid q fuel b n).2.unacked =
        (fun c x => if c = cid ∧ x = q then [] else b.unacked c x) ∧
      (drain cid q fuel b n).2.ready =
        (fun x => if x = q then b.unacked cid q ++ b.ready q else b.ready x) ∧
      (drain cid q fuel b n).2.connections = b.connections ∧
      (drain cid q fuel b n).2.heartbeat = b.heartbeat ∧
      (drain cid q fuel b n).2.connQueues = b.connQueues ∧
      (drain cid q fuel b n).2.consumers = b.consumers := by
  have hempty : ∀ (b : Broker), b.unacked cid q = [] →
      b.unacked = (fun c x => if c = cid ∧ x = q then [] else b.unacked c x) ∧
      b.ready = (fun x => if x = q then b.unacked cid q ++ b.ready q else b.ready x) := by
    intro b h0
    constructor
    · funext c x
      by_cases hc : c = cid ∧ x = q
      · obtain ⟨rfl, rfl⟩ := hc; simp [h0]
      · simp [hc]
    · funext x
      by_cases hx : x = q
      · subst hx; simp [h0]
      · simp [hx]
  intro fuel
  induction fuel with
  | zero =>
    intro b n hlen
    have h0 : b.unacked cid q = [] := List.length_eq_zero.mp (Nat.le_zero.mp hlen)
    obtain ⟨hu, hr⟩ := hempty b h0
    exact ⟨by simp [drain, h0], hu, hr, rfl, rfl, rfl, rfl⟩
  | succ fuel ih =>
    intro b n hlen
    cases hl : (b.unacked cid q).getLast? with
    | none =>
      have h0 : b.unacked cid q = [] := List.getLast?_eq_none_iff.mp hl
      obtain ⟨hu, hr⟩ := hempty b h0
      have hd : drain cid q (fuel + 1) b n = (n, b) := by
        simp [drain, Broker.rpoplpush, hl]
      rw [hd]
      exact ⟨by simp [h0], hu, hr, rfl, rfl, rfl, rfl⟩
    | some v =>
      have hsplit := getLast?_eq_some_split _ v hl
      have hd : drain cid q (fuel + 1) b n =
          drain cid q fuel
            { b with
              unacked := fun c x =>
                if c = cid ∧ x = q then (b.unacked cid q).dropLast else b.unacked c x
              ready := fun x => if x = q then v :: b.ready q else b.ready x } (n + 1) := by
        simp [drain, Broker.rpoplpush, hl]
      have hlen1 : (b.unacked cid q).length = (b.unacked cid q).dropLast.length + 1 := by
        conv_lhs => rw [hsplit]
        simp
      obtain ⟨h1, h2, h3, h4, h5, h6, h7⟩ := ih
        { b with
          unacked := fun c x =>
            if c = cid ∧ x = q then (b.unacked cid q).dropLast else b.unacked c x
          ready := fun x => if x = q then v :: b.ready q else b.ready x } (n + 1)
        (by simp; omega)
      rw [hd]
      refine ⟨?_, ?_, ?_, h4, h5, h6, h7⟩
      · rw [h1]; simp; omega
      · rw [h2]
        funext c x
        by_cases hc : c = cid ∧ x = q <;> simp [hc]
      · rw [h3]
        funext x
        by_cases hx : x = q
        · subst hx
          simp
          conv_rhs => rw [hsplit]
          simp
        · simp [hx]

/-- On an empty unacked list the tags drain nothing. -/
theorem cleanConsumers_empty (cid q : String) (ts : List String) :
    ∀ (b : Broker) (n : Nat), b.unacked cid q = [] → cleanConsumers cid q ts b n = (n, b) := by
  induction ts with
  | nil => intro b n _; rfl
  | cons t ts ih =>
    intro b n h0
    have hd : drain cid q (b.unacked cid q).length b n = (n, b) := by
      rw [h0]; rfl
    show cleanConsumers cid q ts (drain cid q (b.unacked cid q).length b n).2
      (drain cid q (b.unacked cid q).length b n).1 = (n, b)
    rw [hd]
    exact ih b n h0

/-- Draining for the listed tags of one queue of one connection: the list
is emptied when there is a tag and untouched when there is none. -/
theorem cleanConsumers_fields (cid q : String) (ts : List String) (b : Broker) (n : Nat) :
    (cleanConsumers cid q ts b n).1 = n + (if ts = [] then 0 else (b.unacked cid q).length) ∧
    (cleanConsumers cid q ts b n).2.unacked =
      (fun c x => if c = cid ∧ x = q ∧ ts ≠ [] then [] else b.unacked c x) ∧
    (cleanConsumers cid q ts b n).2.ready =
      (fun x => if x = q ∧ ts ≠ [] then b.unacked cid q ++ b.ready q else b.ready x) ∧
    (cleanConsumers cid q ts b n).2.connections = b.connections ∧
    (cleanConsumers cid q ts b n).2.heartbeat = b.heartbeat ∧
    (cleanConsumers cid q ts b n).2.connQueues = b.connQueues ∧
    (cleanConsumers cid q ts b n).2.consumers = b.consumers := by
  cases ts with
  | nil =>
    refine ⟨by simp [cleanConsumers], ?_, ?_, rfl, rfl, rfl, rfl⟩
    · funext c x; simp [cleanConsumers]
    · funext x; simp [cleanConsumers]
  | cons t ts =>
    obtain ⟨d1, d2, d3, d4, d5, d6, d7⟩ :=
      drain_fields cid q (b.unacked cid q).length b n (Nat.le_refl _)
    have h0 : (drain cid q (b.unacked cid q).length b n).2.unacked cid q = [] := by
      rw [d2]; simp
    have hstep : cleanConsumers cid q (t :: ts) b n =
        drain cid q (b.unacked cid q).length b n :=
      cleanConsumers_empty cid q ts _ _ h0
    rw [hstep]
    refine ⟨by rw [d1]; simp, ?_, ?_, d4, d5, d6, d7⟩
    · rw [d2]; funext c x; simp
    · rw [d3]; funext x; simp

/-- Cleaning the listed queues of one connection. -/
theorem cleanQueues_fields (cid : String) (qs : List String) (hqs : qs.Nodup) :
    ∀ (b : Broker) (n : Nat),
      (cleanQueues cid qs b n).1 =
        n + (qs.map (fun q =>
          if b.consumers cid q = [] then 0 else (b.unacked cid q).length)).sum ∧
      (cleanQueues cid qs b n).2.unacked =
        (fun c x => if c = cid ∧ x ∈ qs ∧ b.consumers cid x ≠ [] then [] else b.unacked c x) ∧
      (cleanQueues cid qs b n).2.ready =
        (fun x => if x ∈ qs ∧ b.consumers cid x ≠ [] then b.unacked cid x ++ b.ready x
          else b.ready x) ∧
      (cleanQueues cid qs b n).2.consumers =
        (fun c x => if c = cid ∧ x ∈ qs then [] else b.consumers c x) ∧
      (cleanQueues cid qs b n).2.connections = b.connections ∧
      (cleanQueues cid qs b n).2.heartbeat = b.heartbeat ∧
      (cleanQueues cid qs b n).2.connQueues = b.connQueues := by
  induction qs with
  | nil =>
    intro b n
    refine ⟨by simp [cleanQueues], ?_, ?_, ?_, rfl, rfl, rfl⟩
    · funext c x; simp [cleanQueues]
    · funext x; simp [cleanQueues]
    · funext c x; simp [cleanQueues]
  | cons q qs ih =>
    intro b n
    rw [List.nodup_cons] at hqs
    obtain ⟨c1, c2, c3, c4, c5, c6, c7⟩ := cleanConsumers_fields cid q (b.consumers cid q) b n
    obtain ⟨b1, hb1⟩ : ∃ b1 : Broker, b1 =
        { (cleanConsumers cid q (b.consumers cid q) b n).2 with
          consumers := fun c x =>
            if c = cid ∧ x = q then []
            else (cleanConsumers cid q (b.consumers cid q) b n).2.consumers c x } := ⟨_, rfl⟩
    have hstep : cleanQueues cid (q :: qs) b n =
        cleanQueues cid qs b1 (cleanConsumers cid q (b.consumers cid q) b n).1 := by
      rw [hb1]; rfl
    have e2 : b1.unacked =
        (fun c x => if c = cid ∧ x = q ∧ b.consumers cid q ≠ [] then [] else b.unacked c x) := by
      rw [hb1]; exact c2
    have e3 : b1.ready =
        (fun x => if x = q ∧ b.consumers cid q ≠ [] then b.unacked cid q ++ b.ready q
          else b.ready x) := by
      rw [hb1]; exact c3
    have e4 : b1.connections = b.connections := by rw [hb1]; exact c4
    have e5 : b1.heartbeat = b.heartbeat := by rw [hb1]; exact c5
    have e6 : b1.connQueues = b.connQueues := by rw [hb1]; exact c6
    have e7 : b1.consumers = (fun c x => if c = cid ∧ x = q then [] else b.consumers c x) := by
      rw [hb1]; simp only [c7]
    obtain ⟨h1, h2, h3, h4, h5, h6, h7⟩ := ih hqs.2 b1
      (cleanConsumers cid q (b.consumers cid q) b n).1
    have hne : ∀ x ∈ qs, x ≠ q := fun x hx h => hqs.1 (h ▸ hx)
    have hmap : ∀ x ∈ qs,
        (if b1.consumers cid x = [] then 0 else (b1.unacked cid x).length) =
          (if b.consumers cid x = [] then 0 else (b.unacked cid x).length) := by
      intro x hx
      rw [e2, e7]
      simp [hne x hx]
    simp only [e2, e7] at h2
    simp only [e2, e3, e7] at h3
    simp only [e7] at h4
    rw [e4] at h5
    rw [e5] at h6
    rw [e6] at h7
    rw [hstep]
    refine ⟨?_, ?_, ?_, ?_, h5, h6, h7⟩
    · rw [h1, c1, List.map_cons, List.sum_cons, List.map_congr_left hmap]
      omega
    · rw [h2]
      funext c x
      by_cases hc : c = cid
      · subst hc
        by_cases hxq : x = q
        · subst hxq
          simp [hqs.1]
        · by_cases hx : x ∈ qs <;> simp [hxq, hx]
      · simp [hc]
    · rw [h3]
      funext x
      by_cases hxq : x = q
      · subst hxq
        simp [hqs.1]
      · by_cases hx : x ∈ qs <;> simp [hxq, hx]
    · rw [h4]
      funext c x
      by_cases hc : c = cid
      · subst hc
        by_cases hxq : x = q
        · subst hxq; simp
        · by_cases hx : x ∈ qs <;> simp [hxq, hx]
      · simp [hc]

/-- Cleaning one dead connection. -/
theorem cleanConnection_fields (cid : String) (b : Broker) (n : Nat)
    (hq : (b.connQueues cid).Nodup) :
    (cleanConnection cid b n).1 = n + b.heldCount cid ∧
    (cleanConnection cid b n).2.unacked =
      (fun c x => if c = cid ∧ b.reached cid x then [] else b.unacked c x) ∧
    (cleanConnection cid b n).2.ready = (fun x => b.heldBy cid x ++ b.ready x) ∧
    (cleanConnection cid b n).2.consumers =
      (fun c x => if c = cid ∧ x ∈ b.connQueues cid then [] else b.consumers c x) ∧
    (cleanConnection cid b n).2.connQueues =
      (fun c => if c = cid then [] else b.connQueues c) ∧
    (cleanConnection cid b n).2.connections = b.connections.filter (fun c => c ≠ cid) ∧
    (cleanConnection cid b n).2.heartbeat = b.heartbeat := by
  obtain ⟨h1, h2, h3, h4, h5, h6, h7⟩ := cleanQueues_fields cid (b.connQueues cid) hq b n
  refine ⟨?_, ?_, ?_, h4, ?_, ?_, h6⟩
  · show (cleanQueues cid (b.connQueues cid) b n).1 = _
    rw [h1]
    unfold Broker.heldCount Broker.heldBy Broker.reached
    rw [List.map_congr_left (g := fun q =>
      (if q ∈ b.connQueues cid ∧ b.consumers cid q ≠ [] then b.unacked cid q else []).length)]
    intro x hx
    by_cases hc : b.consumers cid x = [] <;> simp [hx, hc]
  · show (cleanQueues cid (b.connQueues cid) b n).2.unacked = _
    rw [h2]
    funext c x
    unfold Broker.reached
    rfl
  · show (cleanQueues cid (b.connQueues cid) b n).2.ready = _
    rw [h3]
    funext x
    unfold Broker.heldBy Broker.reached
    by_cases hx : x ∈ b.connQueues cid ∧ b.consumers cid x ≠ [] <;> simp [hx]
  · show (fun c => if c = cid then []
      else (cleanQueues cid (b.connQueues cid) b n).2.connQueues c) = _
    rw [h7]
  · show (cleanQueues cid (b.connQueues cid) b n).2.connections.filter (fun c => c ≠ cid) = _
    rw [h5]

theorem reached_congr (b b1 : Broker) (c : String)
    (hq : b1.connQueues c = b.connQueues c) (hs : b1.consumers c = b.consumers c)
    (x : String) : b1.reached c x ↔ b.reached c x := by
  unfold Broker.reached
  rw [hq, hs]

theorem heldBy_congr (b b1 : Broker) (c : String)
    (hq : b1.connQueues c = b.connQueues c) (hs : b1.consumers c = b.consumers c)
    (hu : b1.unacked c = b.unacked c) (x : String) : b1.heldBy c x = b.heldBy c x := by
  unfold Broker.heldBy
  have hr := reached_congr b b1 c hq hs x
  by_cases h : b.reached c x
  · rw [if_pos h, if_pos (hr.mpr h), hu]
  · rw [if_neg h, if_neg (fun h1 => h (hr.mp h1))]

theorem heldCount_congr (b b1 : Broker) (c : String)
    (hq : b1.connQueues c = b.connQueues c) (hs : b1.consumers c = b.consumers c)
    (hu : b1.unacked c = b.unacked c) : b1.heldCount c = b.heldCount c := by
  unfold Broker.heldCount
  rw [hq, funext (heldBy_congr b b1 c hq hs hu)]

/-- Steps 2 to 4 over a list of connection ids without repetition. -/
theorem cleanAll_fields (cids : List String) (hn : cids.Nodup) :
    ∀ (b : Broker) (n : Nat), (∀ c, (b.connQueues c).Nodup) →
      (cleanAll cids b n).1 =
        n + ((cids.filter (fun c => !b.heartbeat c)).map b.heldCount).sum ∧
      (cleanAll cids b n).2.unacked =
        (fun c x =>
          if c ∈ cids ∧ b.heartbeat c = false ∧ b.reached c x then [] else b.unacked c x) ∧
      (cleanAll cids b n).2.ready =
        (fun x => ((cids.filter (fun c => !b.heartbeat c)).reverse.map
          (fun c => b.heldBy c x)).flatten ++ b.ready x) ∧
      (cleanAll cids b n).2.connections =
        b.connections.filter (fun c => !(decide (c ∈ cids) && !b.heartbeat c)) ∧
      (cleanAll cids b n).2.heartbeat = b.heartbeat := by
  induction cids with
  | nil =>
    intro b n _
    refine ⟨by simp [cleanAll], ?_, ?_, by simp [cleanAll], rfl⟩
    · funext c x; simp [cleanAll]
    · funext x; simp [cleanAll]
  | cons cid cids ih =>
    intro b n hq
    rw [List.nodup_cons] at hn
    by_cases hb : b.heartbeat cid = true
    · have hstep : cleanAll (cid :: cids) b n = cleanAll cids b n := by simp [cleanAll, hb]
      obtain ⟨h1, h2, h3, h4, h5⟩ := ih hn.2 b n hq
      have hfil : (cid :: cids).filter (fun c => !b.heartbeat c) =
          cids.filter (fun c => !b.heartbeat c) := by simp [List.filter_cons, hb]
      rw [hstep, hfil]
      refine ⟨h1, ?_, h3, ?_, h5⟩
      · rw [h2]
        funext c x
        by_cases hcc : c = cid
        · subst hcc; simp [hb, hn.1]
        · simp [hcc]
      · rw [h4]
        apply List.filter_congr
        intro c _
        by_cases hcc : c = cid
        · subst hcc; simp [hb, hn.1]
        · simp [hcc]
    · have hb0 : b.heartbeat cid = false := by simpa using hb
      obtain ⟨k1, k2, k3, k4, k5, k6, k7⟩ := cleanConnection_fields cid b n (hq cid)
      obtain ⟨b1, hb1⟩ : ∃ b1 : Broker, b1 = (cleanConnection cid b n).2 := ⟨_, rfl⟩
      have hstep : cleanAll (cid :: cids) b n =
          cleanAll cids b1 (cleanConnection cid b n).1 := by
        rw [hb1]; simp [cleanAll, hb0]
      rw [← hb1] at k2 k3 k4 k5 k6 k7
      have hq1 : ∀ c, (b1.connQueues c).Nodup := by
        intro c
        rw [k5]
        by_cases hcc : c = cid
        · simp [hcc]
        · simp only [hcc, if_false]; exact hq c
      have hne : ∀ c ∈ cids, c ≠ cid := fun c hc0 h => hn.1 (h ▸ hc0)
      have eq1 : ∀ c, c ≠ cid → b1.connQueues c = b.connQueues c := by
        intro c hcc; rw [k5]; simp [hcc]
      have eq2 : ∀ c, c ≠ cid → b1.consumers c = b.consumers c := by
        intro c hcc; rw [k4]; funext x; simp [hcc]
      have eq3 : ∀ c, c ≠ cid → b1.unacked c = b.unacked c := by
        intro c hcc; rw [k2]; funext x; simp [hcc]
      obtain ⟨h1, h2, h3, h4, h5⟩ := ih hn.2 b1 (cleanConnection cid b n).1 hq1
      have hfil : (cid :: cids).filter (fun c => !b.heartbeat c) =
          cid :: cids.filter (fun c => !b.heartbeat c) := by simp [List.filter_cons, hb0]
      rw [k7] at h1 h3 h5
      rw [hstep, hfil]
      refine ⟨?_, ?_, ?_, ?_, h5⟩
      · rw [h1, k1, List.map_cons, List.sum_cons, List.map_congr_left (fun c hc0 =>
          heldCount_congr b b1 c (eq1 c (hne c (List.mem_of_mem_filter hc0)))
            (eq2 c (hne c (List.mem_of_mem_filter hc0)))
            (eq3 c (hne c (List.mem_of_mem_filter hc0))))]
        omega
      · rw [h2]
        funext c x
        by_cases hcc : c = cid
        · subst hcc
          have hcond : ¬ (c ∈ cids ∧ b1.heartbeat c = false ∧ b1.reached c x) :=
            fun h => hn.1 h.1
          rw [if_neg hcond, k2]
          simp [hb0]
        · have hr := reached_congr b b1 c (eq1 c hcc) (eq2 c hcc) x
          rw [k7, eq3 c hcc]
          simp [hcc, hr]
      · rw [h3]
        funext x
        rw [k3, List.reverse_cons, List.map_append, List.flatten_append,
          List.map_congr_left (fun c hc0 =>
            heldBy_congr b b1 c
              (eq1 c (hne c (List.mem_of_mem_filter (List.mem_reverse.mp hc0))))
              (eq2 c (hne c (List.mem_of_mem_filter (List.mem_reverse.mp hc0))))
              (eq3 c (hne c (List.mem_of_mem_filter (List.mem_reverse.mp hc0)))) x)]
        simp
      · rw [h4, k6, k7, List.filter_filter]
        apply List.filter_congr
        intro c _
        by_cases hcc : c = cid
        · subst hcc; simp [hb0, hn.1]
        · simp [hcc]

/-- When every listed connection has its heartbeat key, nothing is cleaned. -/
theorem cleanAll_live (cids : List String) (b : Broker) (n : Nat)
    (h : ∀ c ∈ cids, b.heartbeat c = true) : cleanAll cids b n = (n, b) := by
  induction cids with
  | nil => rfl
  | cons c cids ih =>
    have hc : b.heartbeat c = true := h c (List.mem_cons_self _ _)
    simp only [cleanAll, hc, if_true]
    exact ih (fun x hx => h x (List.mem_cons_of_mem _ hx))

end Rmq
